import Mathlib

/-!
Verification of the scan2epub chunking / batching / reassembly pipeline.

Strings of the Python source are modelled as `List Char`; Python string
operations (`split`, `strip`, slicing, `join`) are embedded as executable
list functions.  Whitespace is the ASCII whitespace set used by Python
`str.strip()` and the regex class `\s` on ASCII text.  Python `float`
ratios are modelled as exact rationals `ℚ`.
-/

namespace Scan2epub

/-- Convert a string literal to its character list (model of a Python str). -/
def str (s : String) : List Char := s.data

/-- Python whitespace test (`str.isspace` / regex `\s`), ASCII model. -/
def pyIsSpace (c : Char) : Bool :=
  c == ' ' || c == '\t' || c == '\n' || c == '\r' || c == '\x0b' || c == '\x0c'

/-- The non-whitespace characters of a text, in order. -/
def ns (l : List Char) : List Char := l.filter (fun c => !pyIsSpace c)

/-- Python `str.strip()` on a character list. -/
def pyStrip (l : List Char) : List Char :=
  ((l.dropWhile pyIsSpace).reverse.dropWhile pyIsSpace).reverse

/-- The blank-line paragraph separator `"\n\n"` used throughout the source. -/
def nn : List Char := ['\n', '\n']

/-- Python `text.split("\n\n")`: split on each non-overlapping occurrence of
the two-newline separator, scanning left to right; empty parts are kept and
the empty text yields `[[]]`. -/
def splitParas : List Char → List (List Char)
  | [] => [[]]
  | [c] => [[c]]
  | c :: d :: rest =>
    if c = '\n' ∧ d = '\n' then [] :: splitParas rest
    else
      match splitParas (d :: rest) with
      | [] => [[c]]
      | p :: ps => (c :: p) :: ps

/-- Python `sep.join(parts)` on character lists. -/
def pyJoin (sep : List Char) : List (List Char) → List Char
  | [] => []
  | [x] => x
  | x :: xs => x ++ sep ++ pyJoin sep xs

/-- Does this character end a sentence for the regex `(?<=[.!?])\s+`? -/
def sentEndChar : Option Char → Bool
  | some c => c == '.' || c == '!' || c == '?'
  | none => false

/-- Worker for `re.split(r'(?<=[.!?])\s+', text)`: `prev` is the previously
consumed character (lookbehind), `acc` the current segment reversed, and
`skipping` records that we are inside a matched whitespace run (the regex
`\s+` consumes the maximal run).  A whitespace run preceded by `.`, `!` or
`?` separates segments and is consumed. -/
def sentSplitAux (skipping : Bool) (prev : Option Char) (acc : List Char) :
    List Char → List (List Char)
  | [] => [acc.reverse]
  | c :: rest =>
    if skipping && pyIsSpace c then
      sentSplitAux true (some c) acc rest
    else if !skipping && (pyIsSpace c && sentEndChar prev) then
      acc.reverse :: sentSplitAux true (some c) [] rest
    else
      sentSplitAux false (some c) (c :: acc) rest

/-- Model of `re.split(r'(?<=[.!?])\s+', paragraph)` from `chunk_text`. -/
def sentSplit (p : List Char) : List (List Char) :=
  sentSplitAux false none [] p

/-- One step of the inner sentence loop of `chunk_text`
(`src/scan2epub/epub/cleaner.py`): state is `(chunks, current_chunk)`. -/
def chunkSentStep (maxChars : Nat) (st : List (List Char) × List Char)
    (s : List Char) : List (List Char) × List Char :=
  let (chunks, cur) := st
  if maxChars < cur.length + s.length then
    if cur.isEmpty then
      (chunks ++ [s.take maxChars], s.drop maxChars)
    else
      (chunks ++ [pyStrip cur], s)
  else
    (chunks, if cur.isEmpty then s else cur ++ ' ' :: s)

/-- One step of the outer paragraph loop of `chunk_text`. -/
def chunkParaStep (maxChars : Nat) (st : List (List Char) × List Char)
    (p : List Char) : List (List Char) × List Char :=
  let (chunks, cur) := st
  if maxChars < cur.length + p.length then
    if cur.isEmpty then
      (sentSplit p).foldl (chunkSentStep maxChars) (chunks, cur)
    else
      (chunks ++ [pyStrip cur], p)
  else
    (chunks, if cur.isEmpty then p else cur ++ nn ++ p)

/-- `chunk_text(text, max_tokens_per_chunk)` from
`src/scan2epub/epub/cleaner.py`: greedy paragraph-first packing with
`max_chars = 2 * max_tokens_per_chunk`, sentence fallback and force split. -/
def chunk_text (text : List Char) (maxTokensPerChunk : Nat) :
    List (List Char) :=
  let maxChars := maxTokensPerChunk * 2
  let st := (splitParas text).foldl (chunkParaStep maxChars) ([], [])
  if st.2.isEmpty then st.1 else st.1 ++ [pyStrip st.2]

/-- The fixed empty-chapter placeholder document of `reconstruct_html`. -/
def emptyChapterHtml : List Char :=
  str "<?xml version=\x271.0\x27 encoding=\x27utf-8\x27?>\n<html xmlns=\"http://www.w3.org/1999/xhtml\">\n<head><title>Empty Chapter</title></head>\n<body><p>This chapter appears to be empty.</p></body>\n</html>"

/-- The fixed document-skeleton opening of `reconstruct_html`. -/
def docHeader : List Char :=
  str "<?xml version=\x271.0\x27 encoding=\x27utf-8\x27?>\n<html xmlns=\"http://www.w3.org/1999/xhtml\">\n<head><title>Chapter</title></head>\n<body>\n"

/-- The fixed document-skeleton closing of `reconstruct_html`. -/
def docFooter : List Char := str "</body>\n</html>"

/-- `reconstruct_html(cleaned_text, original_html)` from
`src/scan2epub/epub/cleaner.py` (the second argument is accepted but unused,
as in the source). -/
def reconstruct_html (cleaned _origHtml : List Char) : List Char :=
  if (pyStrip cleaned).isEmpty then emptyChapterHtml
  else
    let paragraphs := ((splitParas cleaned).filter
        (fun p => !(pyStrip p).isEmpty)).map pyStrip
    let paragraphs := if paragraphs.isEmpty then [pyStrip cleaned] else paragraphs
    let body := paragraphs.foldl (fun acc p =>
      if (pyStrip p).isEmpty then acc
      else if p.length < 100 && !(p.getLast? == some '.') then
        acc ++ str "<h2>" ++ p ++ str "</h2>\n"
      else
        acc ++ str "<p>" ++ p ++ str "</p>\n") docHeader
    body ++ docFooter

/-- Modelled from the spec wording of C6: the paragraph list described by the
claim (split on the blank-line separator, trimmed, empties dropped, whole
trimmed string if the split yields none). -/
def reconstructSpecParas (flat : List Char) : List (List Char) :=
  let ps := ((splitParas flat).map pyStrip).filter (fun p => !p.isEmpty)
  if ps.isEmpty then [pyStrip flat] else ps

/-- Modelled from the spec wording of C6: one emitted element — a heading
element exactly when the paragraph is shorter than 100 characters and does
not end with a period, a body paragraph element otherwise. -/
def specElement (p : List Char) : List Char :=
  if p.length < 100 && !(p.getLast? == some '.') then
    str "<h2>" ++ p ++ str "</h2>\n"
  else
    str "<p>" ++ p ++ str "</p>\n"

/-- Modelled from the spec wording of C6: the whole reconstruction as the
claim describes it. -/
def reconstructSpec (flat : List Char) : List Char :=
  if (pyStrip flat).isEmpty then emptyChapterHtml
  else
    docHeader ++ ((reconstructSpecParas flat).map specElement).flatten ++
      docFooter

/-- One extracted content item of an EPUB, as the dicts built by
`extract_epub_content` in cleaner and translator. -/
structure ContentItem where
  id : List Char
  file_name : List Char
  title : List Char
  content : List Char
  html_content : List Char
deriving DecidableEq

/-- One output chapter entry (`cleaned_content` / `translated_content`). -/
structure OutItem where
  file_name : List Char
  title : List Char
  html : List Char
deriving DecidableEq

/-- Python `item['file_name'].lower()`. -/
def lowerName (l : List Char) : List Char := l.map Char.toLower

/-- Python substring containment `pat in l`. -/
def containsSeq (pat : List Char) : List Char → Bool
  | [] => pat.isEmpty
  | c :: rest => pat.isPrefixOf (c :: rest) || containsSeq pat rest

/-- The navigation/TOC skip test shared by `clean_epub` and
`translate_epub`: exact names `nav.xhtml`, `toc.ncx`, `content.opf`, or a
lower-cased name containing `nav`. -/
def isSkippedName (name : List Char) : Bool :=
  name == str "nav.xhtml" || name == str "toc.ncx" ||
    name == str "content.opf" || containsSeq (str "nav") (lowerName name)

/-- The per-item loop of `EPUBOCRCleaner.clean_epub`: navigation items are
skipped, items with whitespace-only text are skipped, every other item is
cleaned (the external LLM cleanup `clean_text_with_llm` is the injected
`cleanFn`) and reconstructed. -/
def cleanEpubItems (cleanFn : List Char → List Char)
    (items : List ContentItem) : List OutItem :=
  items.foldl (fun acc item =>
    if isSkippedName item.file_name then acc
    else if (pyStrip item.content).isEmpty then acc
    else acc ++ [⟨item.file_name, item.title,
      reconstruct_html (cleanFn item.content) item.html_content⟩]) []

/-- `TranslatorRuntimeConfig` from `src/scan2epub/epub/translator.py`. -/
structure TrCfg where
  maxParagraphsPerBatch : Nat
  maxCharsPerBatch : Nat

/-- The source defaults: 100 paragraphs, 30000 characters per batch. -/
def defaultTrCfg : TrCfg := ⟨100, 30000⟩

/-- Python `text.split("\n")`. -/
def splitLines : List Char → List (List Char)
  | [] => [[]]
  | c :: rest =>
    if c = '\n' then [] :: splitLines rest
    else
      match splitLines rest with
      | [] => [[c]]
      | p :: ps => (c :: p) :: ps

/-- One step of the line-grouping fallback of
`EPUBTranslator._split_paragraphs`: state `(acc, buf, cur_len)`. -/
def splitParaFallbackStep (st : List (List Char) × List (List Char) × Nat)
    (ln : List Char) : List (List Char) × List (List Char) × Nat :=
  let (acc, buf, curLen) := st
  if ln.isEmpty then
    if buf.isEmpty then (acc, buf, curLen)
    else (acc ++ [pyStrip (pyJoin [' '] buf)], [], 0)
  else
    let st2 :=
      if 2000 < curLen + ln.length then
        if buf.isEmpty then (acc, buf, curLen)
        else (acc ++ [pyStrip (pyJoin [' '] buf)], ([] : List (List Char)), 0)
      else (acc, buf, curLen)
    (st2.1, st2.2.1 ++ [ln], st2.2.2 + ln.length + 1)

/-- `EPUBTranslator._split_paragraphs`: blank-line split with trimmed
non-empty parts, falling back to grouping single lines up to a 2000-char
threshold. -/
def splitParagraphsT (text : List Char) : List (List Char) :=
  if text.isEmpty then []
  else
    let parts := ((splitParas text).filter
        (fun p => !(pyStrip p).isEmpty)).map pyStrip
    if !parts.isEmpty then parts
    else
      let lines := (splitLines text).map pyStrip
      let st := lines.foldl splitParaFallbackStep ([], [], 0)
      let acc := if st.2.1.isEmpty then st.1
        else st.1 ++ [pyStrip (pyJoin [' '] st.2.1)]
      acc.filter (fun p => !p.isEmpty)

/-- `EPUBTranslator._batch_paragraphs`: greedy packing of whole paragraphs
respecting the batch paragraph-count and character budgets. -/
def batchParagraphs (cfg : TrCfg) (paragraphs : List (List Char)) :
    List (List (List Char)) :=
  let st := paragraphs.foldl (fun (st : List (List (List Char)) × List (List Char) × Nat) p =>
    let (batches, cur, curChars) := st
    if !cur.isEmpty &&
        (decide (cfg.maxParagraphsPerBatch < cur.length + 1) ||
         decide (cfg.maxCharsPerBatch < curChars + p.length)) then
      (batches ++ [cur], [p], p.length)
    else
      (batches, cur ++ [p], curChars + p.length)) ([], [], 0)
  if st.2.1.isEmpty then st.1 else st.1 ++ [st.2.1]

/-- Status events appended by `EPUBTranslator` (`_status` writes). -/
inductive TEvent where
  | translate_start
  | translate_item_start (file : List Char) (paragraphs : Nat)
  | translate_item_chunking_done (batches paragraphs : Nat)
  | translate_batch_start (idx total batchSize : Nat)
  | translate_batch_done (idx total : Nat)
  | translate_item_done (file : List Char)
  | translate_noop (totalParagraphs changedParagraphs : Nat)
  | translate_done
  | translate_error
deriving DecidableEq

/-- The change counter of `translate_epub`: zip source and translated
paragraphs and count pairs whose trimmed texts differ (`zip` silently
truncates on a length mismatch, as in the source). -/
def countDiffs (a b : List (List Char)) : Nat :=
  ((a.zip b).filter (fun pr => !(pyStrip pr.1 == pyStrip pr.2))).length

/-- `EPUBTranslator._translate_paragraphs`, with the external provider
injected as a function from a batch of segments to its returned list.
Returns the accumulated translations and the status events emitted. -/
def translateParagraphsM (provider : List (List Char) → List (List Char))
    (cfg : TrCfg) (ps : List (List Char)) :
    List (List Char) × List TEvent :=
  if ps.isEmpty then ([], [])
  else
    let batches := batchParagraphs cfg ps
    let total := batches.length
    let st := batches.foldl
      (fun (st : List (List Char) × List TEvent × Nat) b =>
        let (tr, evs, i) := st
        let out := provider b
        (tr ++ out,
         evs ++ [.translate_batch_start i total b.length,
                 .translate_batch_done i total], i + 1))
      ([], [TEvent.translate_item_chunking_done total ps.length], 1)
    (st.1, st.2.1)

/-- Per-item work of `translate_epub` for one eligible content item:
paragraph split, batch-translate, change count, rejoin, reconstruct. -/
def processItem (provider : List (List Char) → List (List Char)) (cfg : TrCfg)
    (item : ContentItem) : OutItem × Nat × Nat × List TEvent :=
  let ps := splitParagraphsT item.content
  let tr := translateParagraphsM provider cfg ps
  let diffs := countDiffs ps tr.1
  let html := reconstruct_html (pyJoin nn tr.1) item.html_content
  (⟨item.file_name, item.title, html⟩, ps.length, diffs,
   [TEvent.translate_item_start item.file_name ps.length] ++ tr.2 ++
     [TEvent.translate_item_done item.file_name])

/-- Errors `translate_epub` can raise after extraction: the quality-gate
`TranslationError` and the `EPUBError` of `_create_translated_epub` when no
content survives. -/
inductive TErr where
  | translationNoop
  | epubEmptyContent
deriving DecidableEq

/-- `EPUBTranslator.translate_epub` after content extraction: per-item
processing with navigation/empty skipping, the document-level no-op quality
gate (ratio compared as exact rationals, modelling the float arithmetic),
then EPUB creation.  Returns the result and the status-event log; an
exception is logged as `translate_error` and re-raised, as in the source. -/
def translate_epub_model (provider : List (List Char) → List (List Char))
    (cfg : TrCfg) (allowNoop : Bool) (minChangedRatio : ℚ)
    (items : List ContentItem) :
    Except TErr (List OutItem) × List TEvent :=
  let st := items.foldl
    (fun (st : List OutItem × Nat × Nat × List TEvent) item =>
      if isSkippedName item.file_name then st
      else if (pyStrip item.content).isEmpty then st
      else
        let (out, np, nd, evs) := processItem provider cfg item
        (st.1 ++ [out], st.2.1 + np, st.2.2.1 + nd, st.2.2.2 ++ evs))
    ([], 0, 0, [TEvent.translate_start])
  let (outs, total, changed, evs) := st
  let ratio : ℚ := if total = 0 then 0 else (changed : ℚ) / (max 1 total : ℚ)
  if !allowNoop && decide (ratio ≤ minChangedRatio) then
    (.error .translationNoop,
     evs ++ [.translate_noop total changed, .translate_error])
  else if outs.isEmpty then
    (.error .epubEmptyContent, evs ++ [.translate_error])
  else
    (.ok outs, evs ++ [.translate_done])

/-- `clean_chunks` hardcodes `max_retries = 3`. -/
def cleanerMaxRetries : Nat := 3

/-- `clean_chunks` hardcodes `retry_delay = 2` seconds. -/
def cleanerRetryDelay : Nat := 2

/-- The per-chunk attempt loop of `clean_chunks`
(`src/scan2epub/epub/cleaner.py`).  The external LLM call is the oracle
`llm i a` (chunk index `i`, attempt `a`), returning the raw response text or
`none` for an exception.  Returns `(appended text, attempts made, sleep
delays performed)`: a success appends the trimmed response, the final
failure appends the original chunk, and every non-final failure sleeps for
`cleanerRetryDelay` seconds. -/
def tryCleanAux (llm : Nat → Nat → Option (List Char)) (i : Nat)
    (chunk : List Char) : Nat → Nat → List Char × Nat × List Nat
  | a, 0 => (chunk, a, [])
  | a, r + 1 =>
    match llm i a with
    | some t => (pyStrip t, a + 1, [])
    | none =>
      if r = 0 then (chunk, a + 1, [])
      else
        let rec' := tryCleanAux llm i chunk (a + 1) r
        (rec'.1, rec'.2.1, cleanerRetryDelay :: rec'.2.2)

/-- `clean_chunks`: process the chunks in order (1-based index as in
`enumerate(chunks, start=1)`), appending each chunk's per-attempt result. -/
def clean_chunks_model (llm : Nat → Nat → Option (List Char))
    (chunks : List (List Char)) : List (List Char) :=
  (chunks.foldl (fun (st : List (List Char) × Nat) c =>
    (st.1 ++ [(tryCleanAux llm st.2 c 0 cleanerMaxRetries).1], st.2 + 1))
    ([], 1)).1

/-- `AzureTranslator.MAX_DOCS_PER_REQUEST`. -/
def azMaxDocsPerRequest : Nat := 90

/-- `AzureTranslator.MAX_CHARS_PER_REQUEST`. -/
def azMaxCharsPerRequest : Nat := 45000

/-- `AzureTranslator._batch_segments`: greedy packing of segments under the
per-request document-count and character limits. -/
def azBatchSegments (segments : List (List Char)) :
    List (List (List Char)) :=
  let st := segments.foldl
    (fun (st : List (List (List Char)) × List (List Char) × Nat) s =>
      let (batches, batch, chars) := st
      if !batch.isEmpty &&
          (decide (azMaxDocsPerRequest < batch.length + 1) ||
           decide (azMaxCharsPerRequest < chars + s.length)) then
        (batches ++ [batch], [s], s.length)
      else
        (batches, batch ++ [s], chars + s.length)) ([], [], 0)
  if st.2.1.isEmpty then st.1 else st.1 ++ [st.2.1]

/-- One HTTP response of the Azure Translator, as `translate_text` sees it:
`fail` is a network error or an HTTP status `>= 400` (both raise), `data`
carries the decoded item list — one entry per response item, each holding
the optional `text` fields of its `translations` array. -/
inductive AzResp where
  | fail
  | data (items : List (List (Option (List Char))))

/-- Decoding of one successful response body in `translate_text`: an item
without translations falls back to the original segment at the same index
(an index beyond the request batch raises, modelled as `.error ()`), an
item with translations contributes its first translation's trimmed text. -/
def azProcessData (batch : List (List Char)) (i : Nat) :
    List (List (Option (List Char))) → Except Unit (List (List Char))
  | [] => .ok []
  | it :: rest =>
    match it with
    | [] =>
      match batch[i]? with
      | some orig =>
        match azProcessData batch (i + 1) rest with
        | .ok tl => .ok (orig :: tl)
        | .error e => .error e
      | none => .error ()
    | t0 :: _ =>
      match azProcessData batch (i + 1) rest with
      | .ok tl => .ok (pyStrip (t0.getD []) :: tl)
      | .error e => .error e

/-- The per-batch retry loop of `AzureTranslator.translate_text`: attempts
are numbered from 1; any exception (HTTP/network failure or decode error)
retries until the attempt budget is exhausted, and the final failure
degrades to the original batch. -/
def azBatchLoop (http : Nat → Nat → AzResp) (bIdx : Nat)
    (batch : List (List Char)) : Nat → Nat → List (List Char)
  | _, 0 => []
  | attempt, r + 1 =>
    match http bIdx attempt with
    | .fail =>
      if r = 0 then batch else azBatchLoop http bIdx batch (attempt + 1) r
    | .data items =>
      match azProcessData batch 0 items with
      | .ok out => out
      | .error _ =>
        if r = 0 then batch else azBatchLoop http bIdx batch (attempt + 1) r

/-- `AzureTranslator.translate_text`: empty input short-circuits, a target
language shorter than 2 characters raises `TranslationError`, otherwise the
segments are batched, each batch is translated with retries, and a final
alignment guard trims or extends with originals on a length mismatch. -/
def azTranslateText (http : Nat → Nat → AzResp) (maxRetries : Nat)
    (segments : List (List Char)) (toLang : List Char) :
    Except Unit (List (List Char)) :=
  if segments.isEmpty then .ok []
  else if toLang.length < 2 then .error ()
  else
    let batches := azBatchSegments segments
    let translated := (batches.foldl
      (fun (st : List (List Char) × Nat) b =>
        (st.1 ++ azBatchLoop http st.2 b 1 maxRetries, st.2 + 1))
      ([], 1)).1
    let translated :=
      if translated.length ≠ segments.length then
        if segments.length < translated.length then
          translated.take segments.length
        else
          translated ++ segments.drop translated.length
      else translated
    .ok translated

/-- External outcomes of one `run_ocr_to_epub` run
(`src/scan2epub/pipeline.py`): whether the input is already an http(s) URL,
and the results of the external upload, OCR, EPUB build and blob-cleanup
calls. -/
structure OcrRunEnv where
  isUrl : Bool
  upload : Except (List Char) (List Char)
  ocr : Except (List Char) (List Char)
  build : Except (List Char) Unit
  cleanup : Except (List Char) Unit

/-- `run_ocr_to_epub` with its `try`/`finally` structure: a storage handler
exists only for local inputs; the `finally` block attempts blob cleanup
only when a handler exists, `cfg.processing.cleanup_on_failure` is set and
debug mode is off, and swallows any cleanup exception.  Returns the run
result (the output path on success) and whether cleanup was attempted. -/
def run_ocr_to_epub_model (env : OcrRunEnv) (outputEpub : List Char)
    (debug cleanupOnFailure : Bool) :
    Except (List Char) (List Char) × Bool :=
  let afterUpload : Except (List Char) Unit × Bool :=
    if env.isUrl then (.ok (), false)
    else
      match env.upload with
      | .ok _ => (.ok (), true)
      | .error e => (.error e, true)
  let handlerCreated := afterUpload.2
  let result : Except (List Char) (List Char) :=
    match afterUpload.1 with
    | .error e => .error e
    | .ok _ =>
      match env.ocr with
      | .error e => .error e
      | .ok _ =>
        match env.build with
        | .error e => .error e
        | .ok _ => .ok outputEpub
  let attempted := handlerCreated && cleanupOnFailure && !debug
  let result :=
    if attempted then
      match env.cleanup with
      | .ok _ => result
      | .error _ => result
    else result
  (result, attempted)

/-- Total character count of a batch. -/
def sumLen (b : List (List Char)) : Nat := (b.map List.length).sum

/-- The per-batch property claimed by C5. -/
def batchOk (cfg : TrCfg) (b : List (List Char)) : Prop :=
  b.length ≤ cfg.maxParagraphsPerBatch ∧
    (sumLen b ≤ cfg.maxCharsPerBatch ∨
      ∃ p, b = [p] ∧ cfg.maxCharsPerBatch < p.length)

/-- An item that the transformation loops actually process: not a
navigation/TOC artifact and with non-whitespace text. -/
def goodItem (i : ContentItem) : Bool :=
  !isSkippedName i.file_name && !(pyStrip i.content).isEmpty

/-- The processed (non-skipped) items, in order. -/
def goodItems (items : List ContentItem) : List ContentItem :=
  items.filter goodItem

/-- The output entry `clean_epub` builds for one processed item. -/
def mkCleanOut (cleanFn : List Char → List Char) (i : ContentItem) :
    OutItem :=
  ⟨i.file_name, i.title, reconstruct_html (cleanFn i.content) i.html_content⟩

/-- `total_paragraphs` as accumulated by `translate_epub`. -/
def totalParagraphsOf (items : List ContentItem) : Nat :=
  ((goodItems items).map (fun it => (splitParagraphsT it.content).length)).sum

/-- `changed_paragraphs` as accumulated by `translate_epub`. -/
def changedParagraphsOf (provider : List (List Char) → List (List Char))
    (cfg : TrCfg) (items : List ContentItem) : Nat :=
  ((goodItems items).map (fun it =>
    countDiffs (splitParagraphsT it.content)
      (translateParagraphsM provider cfg (splitParagraphsT it.content)).1)).sum

/-- The quality-gate ratio of `translate_epub`
(`changed / max(1, total)` when any paragraph exists, else `0`). -/
def ratioOf (provider : List (List Char) → List (List Char)) (cfg : TrCfg)
    (items : List ContentItem) : ℚ :=
  if totalParagraphsOf items = 0 then 0
  else (changedParagraphsOf provider cfg items : ℚ) /
    (max 1 (totalParagraphsOf items) : ℚ)

/-- Is this status event the `translate_noop` event? -/
def isNoopEvent : TEvent → Bool
  | .translate_noop _ _ => true
  | _ => false

/-- All per-item status events of a `translate_epub` run, in order. -/
def itemEventsOf (provider : List (List Char) → List (List Char))
    (cfg : TrCfg) (items : List ContentItem) : List TEvent :=
  ((goodItems items).map (fun it => (processItem provider cfg it).2.2.2)).flatten

/-- Is this status event one of the events `_translate_paragraphs` emits
for an item (chunking done, batch start, batch done)? -/
def isItemLoopEvent : TEvent → Bool
  | .translate_item_chunking_done _ _ => true
  | .translate_batch_start _ _ _ => true
  | .translate_batch_done _ _ => true
  | _ => false

/-- Positional correspondence between one request batch, one decoded
response item list, and one result list in `translate_text`: position `j`
of the result holds the original segment when the response's item `j` has
no translations, and the trimmed text of its first translation otherwise. -/
def azItemsResult (batch r : List (List Char))
    (items : List (List (Option (List Char)))) : Prop :=
  ∀ (j : Nat) (s : List Char), batch[j]? = some s →
    (items[j]? = some [] → r[j]? = some s) ∧
    ∀ (t0 : Option (List Char)) (ts : List (Option (List Char))),
      items[j]? = some (t0 :: ts) → r[j]? = some (pyStrip (t0.getD []))

/-- The result of one batch of `translate_text`: one string per segment of
the batch, and either the whole batch degraded to its originals (failure
after retries) or some accepted response of the service determines every
position of the result. -/
def azBatchResultOk (http : Nat → Nat → AzResp) (k : Nat)
    (batch r : List (List Char)) : Prop :=
  r.length = batch.length ∧
    (r = batch ∨ ∃ a items, http k a = .data items ∧
      azItemsResult batch r items)

/-! ### Basic lemmas about the text helpers -/

theorem ns_append (a b : List Char) : ns (a ++ b) = ns a ++ ns b := by
  simp [ns]

theorem length_pyStrip_le (l : List Char) : (pyStrip l).length ≤ l.length := by
  have h1 : (l.dropWhile pyIsSpace) <:+ l := List.dropWhile_suffix _
  have h2 : ((l.dropWhile pyIsSpace).reverse.dropWhile pyIsSpace) <:+
      (l.dropWhile pyIsSpace).reverse := List.dropWhile_suffix _
  have := h1.length_le
  have := h2.length_le
  simp only [pyStrip, List.length_reverse] at *
  omega

theorem ns_dropWhile_space (l : List Char) :
    ns (l.dropWhile pyIsSpace) = ns l := by
  induction l with
  | nil => rfl
  | cons c t ih =>
    by_cases hc : pyIsSpace c
    · simpa [ns, List.dropWhile_cons, hc] using ih
    · simp [ns, List.dropWhile_cons, hc]

theorem ns_reverse (l : List Char) : ns l.reverse = (ns l).reverse := by
  simp [ns]

theorem ns_pyStrip (l : List Char) : ns (pyStrip l) = ns l := by
  simp only [pyStrip]
  rw [ns_reverse, ns_dropWhile_space, ns_reverse, ns_dropWhile_space]
  simp

theorem pyStrip_eq_nil_iff (l : List Char) : pyStrip l = [] ↔ ns l = [] := by
  constructor
  · intro h
    have := ns_pyStrip l
    rw [h] at this
    exact this.symm
  · intro h
    have hall : ∀ c ∈ l, pyIsSpace c := by
      intro c hc
      have := List.filter_eq_nil_iff.mp h c hc
      simpa using this
    have hdw : l.dropWhile pyIsSpace = [] := List.dropWhile_eq_nil_iff.mpr hall
    simp [pyStrip, hdw]

theorem pyJoin_cons (sep : List Char) (x : List Char) (xs : List (List Char))
    (h : xs ≠ []) : pyJoin sep (x :: xs) = x ++ sep ++ pyJoin sep xs := by
  cases xs with
  | nil => exact absurd rfl h
  | cons y t => rfl

theorem splitParas_ne_nil (l : List Char) : splitParas l ≠ [] := by
  match l with
  | [] => simp [splitParas]
  | [c] => simp [splitParas]
  | c :: d :: rest =>
    simp only [splitParas]
    split
    · simp
    · split <;> simp

theorem pyJoin_nn_splitParas (l : List Char) :
    pyJoin nn (splitParas l) = l := by
  induction l using splitParas.induct with
  | case1 => rfl
  | case2 c => rfl
  | case3 c d rest h ih =>
    obtain ⟨hc, hd⟩ := h
    subst hc; subst hd
    simp only [splitParas, and_self, if_true]
    rw [pyJoin_cons nn [] _ (splitParas_ne_nil rest), ih]
    rfl
  | case4 c d rest h hsp ih =>
    exact absurd hsp (splitParas_ne_nil (d :: rest))
  | case5 c d rest h p ps hsp ih =>
    rw [hsp] at ih
    simp only [splitParas, if_neg h, hsp]
    cases ps with
    | nil => simpa [pyJoin] using ih
    | cons q t =>
      rw [pyJoin_cons nn (c :: p) _ (by simp)]
      rw [pyJoin_cons nn p _ (by simp)] at ih
      simpa using ih

theorem ns_pyJoin (sep : List Char) (hsep : ns sep = [])
    (xs : List (List Char)) : ns (pyJoin sep xs) = ns xs.flatten := by
  induction xs with
  | nil => rfl
  | cons x t ih =>
    cases t with
    | nil => simp [pyJoin, ns_append]
    | cons y s =>
      rw [pyJoin_cons sep x _ (by simp)]
      simp only [List.flatten_cons]
      rw [ns_append, ns_append, ns_append, hsep, ih]
      simp

/-! ### Claim C3: the chunk-length bound -/

/-- Claim C3 as stated is false: with `N = 1` (`max_chars = 2`) the text
`"a\n\nbbbb"` produces the chunk `"bbbb"` of length `4 > 2`, which is not a
force-split chunk (those have length exactly `max_chars`): a paragraph
moved whole into a freshly flushed accumulator is emitted without any
splitting. -/
theorem claim_C3_counterexample :
    ∃ c ∈ chunk_text (str "a\n\nbbbb") 1, 2 * 1 < c.length ∧
      c.length ≠ 2 * 1 := by decide

/-- Helper invariant for the paragraph fold of `chunk_text`: when every
remaining paragraph fits in `max_chars`, the accumulator and all emitted
chunks stay within `max_chars + 2`. -/
theorem chunkParaFold_bound (mc : Nat) (ps : List (List Char)) :
    ∀ st : List (List Char) × List Char,
      (∀ p ∈ ps, p.length ≤ mc) →
      (∀ c ∈ st.1, c.length ≤ mc + 2) → st.2.length ≤ mc + 2 →
      (∀ c ∈ (ps.foldl (chunkParaStep mc) st).1, c.length ≤ mc + 2) ∧
        (ps.foldl (chunkParaStep mc) st).2.length ≤ mc + 2 := by
  induction ps with
  | nil => intro st _ h1 h2; exact ⟨h1, h2⟩
  | cons p rest ih =>
    intro st hp h1 h2
    obtain ⟨chunks, cur⟩ := st
    have hple : p.length ≤ mc := hp p (by simp)
    simp only [List.foldl_cons]
    by_cases hover : mc < cur.length + p.length
    · have hcur : ¬cur.isEmpty := by
        rcases hc : cur.isEmpty with _ | _
        · simp
        · exfalso
          have : cur = [] := by simpa [List.isEmpty_iff] using hc
          rw [this] at hover
          simp at hover
          omega
      have hstep : chunkParaStep mc (chunks, cur) p =
          (chunks ++ [pyStrip cur], p) := by
        simp [chunkParaStep, hover, hcur]
      rw [hstep]
      refine ih _ (fun q hq => hp q (by simp [hq])) ?_
        (by simpa using le_trans hple (Nat.le_add_right _ 2))
      intro c hc
      rcases List.mem_append.mp hc with h | h
      · exact h1 c h
      · have : c = pyStrip cur := by simpa using h
        rw [this]
        calc (pyStrip cur).length ≤ cur.length := length_pyStrip_le cur
        _ ≤ mc + 2 := h2
    · have hstep : chunkParaStep mc (chunks, cur) p =
          (chunks, if cur.isEmpty then p else cur ++ nn ++ p) := by
        simp [chunkParaStep, hover]
      rw [hstep]
      refine ih _ (fun q hq => hp q (by simp [hq])) h1 ?_
      by_cases hce : cur.isEmpty
      · simpa [hce] using Nat.le_add_right_of_le hple
      · simp only [hce, if_neg, ite_false]
        have : cur.length + p.length ≤ mc := Nat.le_of_not_lt hover
        simp [nn]
        omega

/-- Claim C3 (amended): when every blank-line paragraph of the text has
length at most `max_chars = 2 * N`, every chunk returned by
`chunk_text text N` has length at most `max_chars + 2` (the two-character
paragraph separator appended by greedy packing may push a chunk past the
limit); without that hypothesis a paragraph longer than `max_chars` that is
moved whole into a freshly flushed accumulator is emitted unsplit, with no
length bound. -/
theorem claim_C3_amended (text : List Char) (N : Nat)
    (h : ∀ p ∈ splitParas text, p.length ≤ N * 2) :
    ∀ c ∈ chunk_text text N, c.length ≤ N * 2 + 2 := by
  intro c hc
  have hfold := chunkParaFold_bound (N * 2) (splitParas text) ([], [])
    h (by simp) (by simp)
  simp only [chunk_text] at hc
  rcases hc2 : ((splitParas text).foldl (chunkParaStep (N * 2))
      ([], [])).2.isEmpty with _ | _
  · rw [hc2] at hc
    simp only [Bool.false_eq_true, if_false] at hc
    rcases List.mem_append.mp hc with hmem | hmem
    · exact hfold.1 c hmem
    · have : c = pyStrip ((splitParas text).foldl (chunkParaStep (N * 2))
          ([], [])).2 := by simpa using hmem
      rw [this]
      calc (pyStrip _).length ≤ _ := length_pyStrip_le _
      _ ≤ N * 2 + 2 := hfold.2
  · rw [hc2] at hc
    simp only [if_true] at hc
    exact hfold.1 c hc

/-- Witness for the amended C3: a concrete chunk of a concrete input obeys
the bound. -/
theorem claim_C3_amended_witness :
    (str "ab").length ≤ 1 * 2 + 2 :=
  claim_C3_amended (str "ab\n\ncd") 1 (by decide) (str "ab") (by decide)

/-! ### Claim C5: batch boundary integrity -/

/-- Invariant of the greedy fold of `_batch_paragraphs`. -/
theorem batchFold_invariant (cfg : TrCfg)
    (h : 1 ≤ cfg.maxParagraphsPerBatch) (ps : List (List Char)) :
    ∀ st : List (List (List Char)) × List (List Char) × Nat,
      (∀ b ∈ st.1, batchOk cfg b) →
      st.2.1.length ≤ cfg.maxParagraphsPerBatch →
      st.2.2 = sumLen st.2.1 →
      (sumLen st.2.1 ≤ cfg.maxCharsPerBatch ∨
        ∃ p, st.2.1 = [p] ∧ cfg.maxCharsPerBatch < p.length) →
      let r := ps.foldl (fun st p =>
        let (batches, cur, curChars) := st
        if !cur.isEmpty &&
            (decide (cfg.maxParagraphsPerBatch < cur.length + 1) ||
             decide (cfg.maxCharsPerBatch < curChars + p.length)) then
          (batches ++ [cur], [p], p.length)
        else
          (batches, cur ++ [p], curChars + p.length)) st
      (∀ b ∈ r.1, batchOk cfg b) ∧
        r.2.1.length ≤ cfg.maxParagraphsPerBatch ∧
        r.2.2 = sumLen r.2.1 ∧
        (sumLen r.2.1 ≤ cfg.maxCharsPerBatch ∨
          ∃ p, r.2.1 = [p] ∧ cfg.maxCharsPerBatch < p.length) ∧
        r.1.flatten ++ r.2.1 = st.1.flatten ++ st.2.1 ++ ps := by
  induction ps with
  | nil =>
    intro st h1 h2 h3 h4
    exact ⟨h1, h2, h3, h4, by simp⟩
  | cons p rest ih =>
    intro st h1 h2 h3 h4
    obtain ⟨batches, cur, curChars⟩ := st
    dsimp only at h1 h2 h3 h4
    simp only [List.foldl_cons]
    rcases hcond : (!cur.isEmpty &&
        (decide (cfg.maxParagraphsPerBatch < cur.length + 1) ||
         decide (cfg.maxCharsPerBatch < curChars + p.length))) with _ | _
    · -- append to the current batch
      have hnot : cur.isEmpty = true ∨
          (cur.length + 1 ≤ cfg.maxParagraphsPerBatch ∧
            curChars + p.length ≤ cfg.maxCharsPerBatch) := by
        rcases he : cur.isEmpty with _ | _
        · right
          rw [he] at hcond
        <;> simp at hcond
          constructor <;> omega
        · left; rfl
      simp only [hcond, Bool.false_eq_true, if_false]
      have hres := ih (batches, cur ++ [p], curChars + p.length) h1 ?_ ?_ ?_
      · simpa using hres
      · rcases hnot with he | ⟨hl, _⟩
        · have : cur = [] := List.isEmpty_iff.mp he
          simpa [this] using h
        · simpa using hl
      · simp [sumLen, h3]
      · rcases hnot with he | ⟨_, hc⟩
        · have hce : cur = [] := List.isEmpty_iff.mp he
          subst hce
          simp only [List.nil_append]
          by_cases hp : p.length ≤ cfg.maxCharsPerBatch
          · left; simpa [sumLen] using hp
          · right; exact ⟨p, rfl, by omega⟩
        · left
          dsimp only
          have hs : sumLen (cur ++ [p]) = sumLen cur + p.length := by
            simp [sumLen]
          omega
    · -- flush the current batch
      have hne : ¬cur.isEmpty := by
        rcases he : cur.isEmpty with _ | _
        · simp
        · rw [he] at hcond; simp at hcond
      simp only [hcond, if_true]
      have hres := ih (batches ++ [cur], [p], p.length) ?_ ?_ ?_ ?_
      · obtain ⟨a1, a2, a3, a4, a5⟩ := hres
        refine ⟨a1, a2, a3, a4, ?_⟩
        rw [a5]; simp
      · intro b hb
        rcases List.mem_append.mp hb with hb | hb
        · exact h1 b hb
        · have : b = cur := by simpa using hb
          subst this
          exact ⟨h2, h4⟩
      · simpa using h
      · simp [sumLen]
      · by_cases hp : p.length ≤ cfg.maxCharsPerBatch
        · left; simpa [sumLen] using hp
        · right; exact ⟨p, rfl, by omega⟩

/-- Claim C5: `_batch_paragraphs` partitions the paragraph list: the batches
concatenate back to the input exactly, every batch respects the paragraph
count limit, and every batch respects the character budget unless it is a
single paragraph that alone exceeds it.  (The paragraph-count bound needs a
positive configured limit; the source default is 100.) -/
theorem claim_C5 (cfg : TrCfg) (ps : List (List Char))
    (h : 1 ≤ cfg.maxParagraphsPerBatch) :
    (batchParagraphs cfg ps).flatten = ps ∧
      ∀ b ∈ batchParagraphs cfg ps,
        b.length ≤ cfg.maxParagraphsPerBatch ∧
          (sumLen b ≤ cfg.maxCharsPerBatch ∨
            ∃ p, b = [p] ∧ cfg.maxCharsPerBatch < p.length) := by
  have hinv := batchFold_invariant cfg h ps ([], [], 0)
    (by simp) (by simp [h]) (by simp [sumLen]) (by simp [sumLen])
  obtain ⟨a1, a2, a3, a4, a5⟩ := hinv
  replace a5 : _ = ps := a5
  constructor
  · simp only [batchParagraphs]
    split
    · next he =>
      have hc0 := List.isEmpty_iff.mp he
      rw [hc0] at a5
      simpa using a5
    · next he =>
      rw [List.flatten_append]
      simpa using a5
  · intro b hb
    simp only [batchParagraphs] at hb
    split at hb
    · exact a1 b hb
    · rcases List.mem_append.mp hb with hb2 | hb2
      · exact a1 b hb2
      · have hbc := List.mem_singleton.mp hb2
        rw [hbc]
        exact ⟨a2, a4⟩

/-- Witness for C5 at a concrete input: the batches concatenate back to
the paragraph list. -/
theorem claim_C5_witness :
    (batchParagraphs ⟨2, 3⟩ [str "ab", str "cd", str "e"]).flatten =
      [str "ab", str "cd", str "e"] :=
  (claim_C5 ⟨2, 3⟩ [str "ab", str "cd", str "e"] (by decide)).1

/-! ### Claim C6: HTML reconstruction -/

theorem pyStrip_pyStrip_ne_nil (q : List Char) (hq : pyStrip q ≠ []) :
    pyStrip (pyStrip q) ≠ [] := by
  intro hc
  apply hq
  rw [pyStrip_eq_nil_iff] at hc ⊢
  rwa [ns_pyStrip] at hc

theorem reconstructFold (ps : List (List Char)) :
    ∀ acc : List Char, (∀ p ∈ ps, (pyStrip p).isEmpty = false) →
      ps.foldl (fun acc p =>
        if (pyStrip p).isEmpty then acc
        else if p.length < 100 && !(p.getLast? == some '.') then
          acc ++ str "<h2>" ++ p ++ str "</h2>\n"
        else
          acc ++ str "<p>" ++ p ++ str "</p>\n") acc =
        acc ++ (ps.map specElement).flatten := by
  induction ps with
  | nil => intro acc _; simp
  | cons p rest ih =>
    intro acc hps
    have hp : (pyStrip p).isEmpty = false := hps p (by simp)
    simp only [List.foldl_cons, hp, Bool.false_eq_true, if_false]
    rw [ih _ (fun q hq => hps q (by simp [hq]))]
    simp only [List.map_cons, List.flatten_cons, specElement]
    by_cases hh : (p.length < 100 && !(p.getLast? == some '.')) = true
    · simp [hh, List.append_assoc]
    · simp only [Bool.not_eq_true] at hh
      simp [hh, List.append_assoc]

/-- Claim C6: `reconstruct_html` is a pure function of the flat text that
returns the fixed empty-chapter placeholder on whitespace-only input and
otherwise emits each non-empty trimmed paragraph, in order, as a heading
element exactly when it is shorter than 100 characters and does not end
with a period, as a body paragraph element otherwise, wrapped in the fixed
skeleton — i.e. it coincides with the claim-side description
`reconstructSpec` for every input (and ignores its `original_html`
argument). -/
theorem claim_C6 (c h0 : List Char) :
    reconstruct_html c h0 = reconstructSpec c := by
  simp only [reconstruct_html, reconstructSpec, reconstructSpecParas]
  by_cases hempty : (pyStrip c).isEmpty = true
  · simp [hempty]
  · simp only [Bool.not_eq_true] at hempty
    simp only [hempty, Bool.false_eq_true, if_false]
    rw [List.filter_map]
    have harg : ((fun p => !p.isEmpty) ∘ pyStrip) =
        (fun p => !(pyStrip p).isEmpty) := rfl
    rw [harg]
    set ps := ((splitParas c).filter (fun p => !(pyStrip p).isEmpty)).map
      pyStrip with hps
    by_cases hnil : ps.isEmpty = true
    · simp only [hnil, if_true]
      have hside : ∀ p ∈ [pyStrip c], (pyStrip p).isEmpty = false := by
        intro p hp
        have hpc := List.mem_singleton.mp hp
        subst hpc
        have h1 : pyStrip c ≠ [] := by simpa using hempty
        have h2 := pyStrip_pyStrip_ne_nil c h1
        simpa using h2
      rw [reconstructFold [pyStrip c] docHeader hside]
    · simp only [hnil, Bool.false_eq_true, if_false]
      have hside : ∀ p ∈ ps, (pyStrip p).isEmpty = false := by
        intro p hp
        rw [hps] at hp
        obtain ⟨q, hq, hpq⟩ := List.mem_map.mp hp
        have hqne : pyStrip q ≠ [] := by
          have h3 := List.of_mem_filter hq
          simpa using h3
        have h4 := pyStrip_pyStrip_ne_nil q hqne
        rw [hpq] at h4
        simpa using h4
      rw [reconstructFold ps docHeader hside]

/-! ### Claim C2: provider length-mismatch handling in the stage -/

/-- Claim C2 is false: with an injected provider that returns the empty
list for every batch, the single-paragraph item ends up with zero
translated strings — `EPUBTranslator._translate_paragraphs` neither pads
with the originals nor truncates, it simply extends with whatever the
provider returned. -/
theorem claim_C2_counterexample :
    ((translateParagraphsM (fun _ => []) defaultTrCfg [str "ab"]).1).length
      ≠ [str "ab"].length := by decide

/-- The batch fold of `_translate_paragraphs` is a pure pass-through of the
provider outputs. -/
theorem transBatchFold (provider : List (List Char) → List (List Char))
    (total : Nat) :
    ∀ (bs : List (List (List Char))) (tr : List (List Char))
      (evs : List TEvent) (i : Nat),
      (bs.foldl (fun (st : List (List Char) × List TEvent × Nat) b =>
        let (tr, evs, i) := st
        let out := provider b
        (tr ++ out,
         evs ++ [.translate_batch_start i total b.length,
                 .translate_batch_done i total], i + 1)) (tr, evs, i)).1 =
        tr ++ (bs.map provider).flatten := by
  intro bs
  induction bs with
  | nil => intro tr evs i; simp
  | cons b rest ih =>
    intro tr evs i
    simp only [List.foldl_cons]
    rw [ih]
    simp

/-- The change counter zips the two paragraph lists, so it counts at most
as many differing pairs as the shorter list has elements. -/
theorem countDiffs_le (a b : List (List Char)) :
    countDiffs a b ≤ min a.length b.length := by
  have h1 := List.length_filter_le
    (fun pr : List Char × List Char => !(pyStrip pr.1 == pyStrip pr.2))
    (a.zip b)
  have h2 : (a.zip b).length = min a.length b.length := List.length_zip a b
  calc countDiffs a b ≤ (a.zip b).length := h1
    _ = min a.length b.length := h2

/-- Every event the batch fold appends is a routine progress event
(batch start / batch done): no anomaly event is ever added. -/
theorem transBatchFoldEvents
    (provider : List (List Char) → List (List Char)) (total : Nat) :
    ∀ (bs : List (List (List Char))) (tr : List (List Char))
      (evs : List TEvent) (i : Nat),
      (∀ ev ∈ evs, isItemLoopEvent ev = true) →
      ∀ ev ∈ (bs.foldl (fun (st : List (List Char) × List TEvent × Nat) b =>
        let (tr, evs, i) := st
        let out := provider b
        (tr ++ out,
         evs ++ [.translate_batch_start i total b.length,
                 .translate_batch_done i total], i + 1)) (tr, evs, i)).2.1,
        isItemLoopEvent ev = true := by
  intro bs
  induction bs with
  | nil => intro tr evs i h; simpa using h
  | cons b rest ih =>
    intro tr evs i h
    simp only [List.foldl_cons]
    apply ih
    intro ev hev
    rcases List.mem_append.mp hev with hl | hr
    · exact h ev hl
    · rcases List.mem_cons.mp hr with h1 | hr2
      · subst h1; rfl
      · rcases List.mem_cons.mp hr2 with h3 | h4
        · subst h3; rfl
        · cases h4

/-- Claim C2 (amended): `EPUBTranslator` performs no defensive length
validation: `_translate_paragraphs` returns exactly the concatenation of
the provider's per-batch outputs, unchanged — no padding with originals and
no truncation; the only events it emits are the routine chunking-done /
batch-start / batch-done progress events, so no anomaly is logged at this
layer; and the change counter zips the source and translated paragraph
lists, counting at most the shorter length, so unmatched paragraphs are
silently ignored. -/
theorem claim_C2_amended (provider : List (List Char) → List (List Char))
    (cfg : TrCfg) (ps : List (List Char)) :
    (translateParagraphsM provider cfg ps).1 =
        ((batchParagraphs cfg ps).map provider).flatten ∧
      (∀ ev ∈ (translateParagraphsM provider cfg ps).2,
        isItemLoopEvent ev = true) ∧
      countDiffs ps (translateParagraphsM provider cfg ps).1 ≤
        min ps.length (translateParagraphsM provider cfg ps).1.length := by
  refine ⟨?_, ?_, countDiffs_le ps _⟩
  · simp only [translateParagraphsM]
    by_cases hps : ps.isEmpty = true
    · have : ps = [] := List.isEmpty_iff.mp hps
      subst this
      simp [batchParagraphs]
    · simp only [hps, Bool.false_eq_true, if_false]
      rw [transBatchFold]
      simp
  · simp only [translateParagraphsM]
    by_cases hps : ps.isEmpty = true
    · simp [hps]
    · simp only [hps, Bool.false_eq_true, if_false]
      apply transBatchFoldEvents
      intro ev hev
      rcases List.mem_cons.mp hev with h1 | h2
      · subst h1; rfl
      · cases h2

/-! ### Claim C9: upload cleanup policy of `run_ocr_to_epub` -/

/-- Claim C9 is false: a run that uploaded a local file
(`upload` succeeded), with `cleanup_on_failure` explicitly configured on,
whose OCR stage then raised, attempts no blob cleanup when debug mode is
on — the `finally` block requires `not debug`, so failure paths do not
attempt cleanup regardless of debug mode. -/
theorem claim_C9_counterexample :
    (run_ocr_to_epub_model
        ⟨false, .ok (str "u"), .error (str "boom"), .ok (), .ok ()⟩
        (str "o") true true).2 = false ∧
      (run_ocr_to_epub_model
        ⟨false, .ok (str "u"), .error (str "boom"), .ok (), .ok ()⟩
        (str "o") true true).1 = .error (str "boom") :=
  ⟨rfl, rfl⟩

/-- Claim C9 (amended): blob cleanup is attempted when the run ends —
whether it succeeded or failed — exactly when the input was a local file
(a storage handler exists), `cleanup_on_failure` is configured and debug
mode is off; and a cleanup failure never masks the run's result (the
result is independent of the cleanup outcome). -/
theorem claim_C9_amended (env : OcrRunEnv) (out : List Char)
    (debug cof : Bool) :
    (run_ocr_to_epub_model env out debug cof).2 =
        (!env.isUrl && cof && !debug) ∧
      ∀ c, (run_ocr_to_epub_model { env with cleanup := c } out debug
          cof).1 =
        (run_ocr_to_epub_model env out debug cof).1 := by
  obtain ⟨u, up, oc, bu, cl⟩ := env
  constructor
  · cases u <;> cases up <;> cases cl <;>
      simp [run_ocr_to_epub_model]
  · intro c
    cases u <;> cases up <;> cases cl <;> cases c <;>
      simp [run_ocr_to_epub_model]

/-! ### Claim C8: per-chunk retry-then-degrade in `clean_chunks` -/

theorem tryCleanAux_attempts_le (llm : Nat → Nat → Option (List Char))
    (i : Nat) (c : List Char) :
    ∀ r a, (tryCleanAux llm i c a r).2.1 ≤ a + r := by
  intro r
  induction r with
  | zero => intro a; simp [tryCleanAux]
  | succ r ih =>
    intro a
    simp only [tryCleanAux]
    rcases llm i a with _ | t
    · by_cases hr : r = 0
      · simp [hr]
      · have := ih (a + 1)
        simp only [hr, if_false]
        omega
    · simp

theorem tryCleanAux_attempts_ge (llm : Nat → Nat → Option (List Char))
    (i : Nat) (c : List Char) :
    ∀ r a, 1 ≤ r → a + 1 ≤ (tryCleanAux llm i c a r).2.1 := by
  intro r
  induction r with
  | zero => intro a h; omega
  | succ r ih =>
    intro a _
    simp only [tryCleanAux]
    rcases llm i a with _ | t
    · by_cases hr : r = 0
      · simp [hr]
      · have := ih (a + 1) (by omega)
        simp only [hr, if_false]
        omega
    · simp

theorem tryCleanAux_sleeps (llm : Nat → Nat → Option (List Char)) (i : Nat)
    (c : List Char) :
    ∀ r a, (tryCleanAux llm i c a r).2.2 =
      List.replicate ((tryCleanAux llm i c a r).2.1 - (a + 1))
        cleanerRetryDelay := by
  intro r
  induction r with
  | zero => intro a; simp [tryCleanAux]
  | succ r ih =>
    intro a
    simp only [tryCleanAux]
    rcases llm i a with _ | t
    · by_cases hr : r = 0
      · simp [hr]
      · have hge := tryCleanAux_attempts_ge llm i c r (a + 1) (by omega)
        have hs := ih (a + 1)
        simp only [hr, if_false]
        rw [hs]
        have heq : (tryCleanAux llm i c (a + 1) r).2.1 - (a + 1) =
            ((tryCleanAux llm i c (a + 1) r).2.1 - (a + 2)) + 1 := by
          omega
        rw [heq, List.replicate_succ]
    · simp

theorem tryCleanAux_allFail (llm : Nat → Nat → Option (List Char)) (i : Nat)
    (c : List Char) :
    ∀ r a, (∀ k, a ≤ k → k < a + r → llm i k = none) →
      (tryCleanAux llm i c a r).1 = c := by
  intro r
  induction r with
  | zero => intro a _; simp [tryCleanAux]
  | succ r ih =>
    intro a hfail
    simp only [tryCleanAux]
    have h0 : llm i a = none := hfail a (by omega) (by omega)
    rw [h0]
    by_cases hr : r = 0
    · simp [hr]
    · simp only [hr, if_false]
      exact ih (a + 1) (fun k h1 h2 => hfail k (by omega) (by omega))

/-- Shifting the accumulator out of the `clean_chunks` fold. -/
theorem cleanChunksFold_shift (llm : Nat → Nat → Option (List Char)) :
    ∀ (chunks : List (List Char)) (acc : List (List Char)) (i : Nat),
      (chunks.foldl (fun (st : List (List Char) × Nat) c =>
        (st.1 ++ [(tryCleanAux llm st.2 c 0 cleanerMaxRetries).1], st.2 + 1))
        (acc, i)).1 =
      acc ++ (chunks.foldl (fun (st : List (List Char) × Nat) c =>
        (st.1 ++ [(tryCleanAux llm st.2 c 0 cleanerMaxRetries).1], st.2 + 1))
        ([], i)).1 := by
  intro chunks
  induction chunks with
  | nil => intro acc i; simp
  | cons c rest ih =>
    intro acc i
    simp only [List.foldl_cons]
    rw [ih (acc ++ [_]) (i + 1), ih ([] ++ [_]) (i + 1)]
    simp

theorem cleanChunksFold_length (llm : Nat → Nat → Option (List Char)) :
    ∀ (chunks : List (List Char)) (acc : List (List Char)) (i : Nat),
      (chunks.foldl (fun (st : List (List Char) × Nat) c =>
        (st.1 ++ [(tryCleanAux llm st.2 c 0 cleanerMaxRetries).1], st.2 + 1))
        (acc, i)).1.length = acc.length + chunks.length := by
  intro chunks
  induction chunks with
  | nil => intro acc i; simp
  | cons c rest ih =>
    intro acc i
    simp only [List.foldl_cons]
    rw [ih]
    simp
    omega

theorem cleanChunksFold_get (llm : Nat → Nat → Option (List Char)) :
    ∀ (chunks : List (List Char)) (i j : Nat) (c : List Char),
      chunks[j]? = some c →
      (chunks.foldl (fun (st : List (List Char) × Nat) c =>
        (st.1 ++ [(tryCleanAux llm st.2 c 0 cleanerMaxRetries).1], st.2 + 1))
        ([], i)).1[j]? =
        some ((tryCleanAux llm (i + j) c 0 cleanerMaxRetries).1) := by
  intro chunks
  induction chunks with
  | nil => intro i j c h; simp at h
  | cons c0 rest ih =>
    intro i j c h
    simp only [List.foldl_cons, List.nil_append]
    rw [cleanChunksFold_shift]
    cases j with
    | zero =>
      simp only [List.getElem?_cons_zero, Option.some.injEq] at h
      subst h
      simp
    | succ j =>
      simp only [List.getElem?_cons_succ] at h
      have := ih (i + 1) j c h
      rw [List.getElem?_append_right (by simp)]
      simpa [Nat.add_assoc, Nat.add_comm 1 j] using this

/-- Claim C8: `clean_chunks` attempts each chunk at most `max_retries = 3`
times with the fixed 2-second delay between attempts, returns one output
string per input chunk in order, substitutes the chunk's own original text
at position `i` when all of chunk `i`'s attempts fail, and computes every
other position from that chunk's own attempts alone. -/
theorem claim_C8 (llm : Nat → Nat → Option (List Char))
    (chunks : List (List Char)) :
    (clean_chunks_model llm chunks).length = chunks.length ∧
      ∀ j c, chunks[j]? = some c →
        (clean_chunks_model llm chunks)[j]? =
            some ((tryCleanAux llm (j + 1) c 0 cleanerMaxRetries).1) ∧
          (tryCleanAux llm (j + 1) c 0 cleanerMaxRetries).2.1 ≤
            cleanerMaxRetries ∧
          (tryCleanAux llm (j + 1) c 0 cleanerMaxRetries).2.2 =
            List.replicate
              ((tryCleanAux llm (j + 1) c 0 cleanerMaxRetries).2.1 - 1)
              cleanerRetryDelay ∧
          ((∀ a < cleanerMaxRetries, llm (j + 1) a = none) →
            (clean_chunks_model llm chunks)[j]? = some c) := by
  constructor
  · simpa using cleanChunksFold_length llm chunks [] 1
  · intro j c h
    have hget := cleanChunksFold_get llm chunks 1 j c h
    have hg : (clean_chunks_model llm chunks)[j]? =
        some ((tryCleanAux llm (j + 1) c 0 cleanerMaxRetries).1) := by
      simpa [clean_chunks_model, Nat.add_comm 1 j] using hget
    refine ⟨hg, ?_, ?_, ?_⟩
    · simpa using tryCleanAux_attempts_le llm (j + 1) c cleanerMaxRetries 0
    · simpa using tryCleanAux_sleeps llm (j + 1) c cleanerMaxRetries 0
    intro hfail
    rw [hg, tryCleanAux_allFail llm (j + 1) c cleanerMaxRetries 0
      (fun k _ h2 => hfail k (by omega))]

/-- Witness for C8: an LLM oracle that always fails, on a two-chunk input —
the first chunk degrades to its original text, and exactly one output is
produced per input chunk. -/
theorem claim_C8_witness :
    (clean_chunks_model (fun _ _ => none) [str "x", str "y"]).length = 2 ∧
      (clean_chunks_model (fun _ _ => none) [str "x", str "y"])[0]? =
        some (str "x") := by
  have h := claim_C8 (fun _ _ => none) [str "x", str "y"]
  exact ⟨h.1, (h.2 0 (str "x") rfl).2.2.2 (fun a _ => rfl)⟩

/-! ### Claim C10: AzureTranslator.translate_text output shape -/

theorem azGuard_length (t s : List (List Char)) :
    (if t.length ≠ s.length then
      if s.length < t.length then t.take s.length else t ++ s.drop t.length
    else t).length = s.length := by
  by_cases hne : t.length = s.length
  · simp [hne]
  · simp only [hne, ne_eq, not_false_eq_true, if_true]
    by_cases hlt : s.length < t.length
    · simp [hlt]
      omega
    · simp only [hlt, if_false]
      simp
      omega

theorem azBatchLoop_allFail (http : Nat → Nat → AzResp)
    (hAll : ∀ b a, http b a = .fail) (bIdx : Nat)
    (batch : List (List Char)) :
    ∀ fuel attempt, azBatchLoop http bIdx batch attempt fuel =
      if fuel = 0 then [] else batch := by
  intro fuel
  induction fuel with
  | zero => intro attempt; simp [azBatchLoop]
  | succ r ih =>
    intro attempt
    simp only [azBatchLoop, hAll bIdx attempt]
    by_cases hr : r = 0
    · simp [hr]
    · simp only [hr, if_false]
      rw [ih (attempt + 1)]
      simp [hr]

theorem azFold_allFail (http : Nat → Nat → AzResp)
    (hAll : ∀ b a, http b a = .fail) (maxRetries : Nat) :
    ∀ (bs : List (List (List Char))) (acc : List (List Char)) (i : Nat),
      (bs.foldl (fun (st : List (List Char) × Nat) b =>
        (st.1 ++ azBatchLoop http st.2 b 1 maxRetries, st.2 + 1))
        (acc, i)).1 =
      acc ++ (bs.map (fun b =>
        if maxRetries = 0 then [] else b)).flatten := by
  intro bs
  induction bs with
  | nil => intro acc i; simp
  | cons b rest ih =>
    intro acc i
    simp only [List.foldl_cons]
    rw [ih]
    rw [azBatchLoop_allFail http hAll i b maxRetries 1]
    simp

theorem azBatchSegmentsFold_flatten :
    ∀ (segs : List (List Char))
      (st : List (List (List Char)) × List (List Char) × Nat),
      (segs.foldl (fun (st : List (List (List Char)) × List (List Char) × Nat) s =>
        let (batches, batch, chars) := st
        if !batch.isEmpty &&
            (decide (azMaxDocsPerRequest < batch.length + 1) ||
             decide (azMaxCharsPerRequest < chars + s.length)) then
          (batches ++ [batch], [s], s.length)
        else
          (batches, batch ++ [s], chars + s.length)) st).1.flatten ++
        (segs.foldl (fun (st : List (List (List Char)) × List (List Char) × Nat) s =>
          let (batches, batch, chars) := st
          if !batch.isEmpty &&
              (decide (azMaxDocsPerRequest < batch.length + 1) ||
               decide (azMaxCharsPerRequest < chars + s.length)) then
            (batches ++ [batch], [s], s.length)
          else
            (batches, batch ++ [s], chars + s.length)) st).2.1 =
      st.1.flatten ++ st.2.1 ++ segs := by
  intro segs
  induction segs with
  | nil => intro st; simp
  | cons s rest ih =>
    intro st
    obtain ⟨batches, batch, chars⟩ := st
    simp only [List.foldl_cons]
    split
    · rw [ih]
      simp
    · rw [ih]
      simp

theorem azBatchSegments_flatten (segs : List (List Char)) :
    (azBatchSegments segs).flatten = segs := by
  have h := azBatchSegmentsFold_flatten segs ([], [], 0)
  simp only [azBatchSegments]
  split
  · next he =>
    have hc := List.isEmpty_iff.mp he
    rw [hc] at h
    simpa using h
  · rw [List.flatten_append]
    simpa using h

/-- `azProcessData` succeeds whenever the response has no more items than
the remaining batch positions: one output per item, in order, using the
stripped first translation when present and the original segment when the
translations list is empty. -/
theorem azProcessData_spec (batch : List (List Char)) :
    ∀ (items : List (List (Option (List Char)))) (i : Nat),
      i + items.length ≤ batch.length →
      ∃ out, azProcessData batch i items = .ok out ∧
        out.length = items.length ∧
        ∀ (j : Nat) (s : List Char), batch[i + j]? = some s →
          (items[j]? = some [] → out[j]? = some s) ∧
          ∀ (t0 : Option (List Char)) (ts : List (Option (List Char))),
            items[j]? = some (t0 :: ts) →
            out[j]? = some (pyStrip (t0.getD [])) := by
  intro items
  induction items with
  | nil =>
    intro i _
    refine ⟨[], rfl, rfl, ?_⟩
    intro j s _
    constructor
    · intro hc; simp at hc
    · intro t0 ts hc; simp at hc
  | cons it rest ih =>
    intro i hlen
    have hi : i < batch.length := by
      simp only [List.length_cons] at hlen
      omega
    have horig : batch[i]? = some batch[i] := List.getElem?_eq_getElem hi
    obtain ⟨tl, htl, htlen, hpos⟩ := ih (i + 1) (by
      simp only [List.length_cons] at hlen
      omega)
    cases it with
    | nil =>
      refine ⟨batch[i] :: tl, ?_, by simp [htlen], ?_⟩
      · simp only [azProcessData, horig, htl]
      · intro j s hj
        cases j with
        | zero =>
          constructor
          · intro _
            simp only [Nat.add_zero] at hj
            rw [horig] at hj
            simpa using hj
          · intro t0 ts hc
            simp at hc
        | succ j =>
          have hj2 : batch[(i + 1) + j]? = some s := by
            rw [show (i + 1) + j = i + (j + 1) by omega]
            exact hj
          have := hpos j s hj2
          simpa using this
    | cons t0 ts =>
      refine ⟨pyStrip (t0.getD []) :: tl, ?_, by simp [htlen], ?_⟩
      · simp only [azProcessData, htl]
      · intro j s hj
        cases j with
        | zero =>
          constructor
          · intro hc
            simp at hc
          · intro t0b tsb hc
            simp only [List.getElem?_cons_zero, Option.some.injEq,
              List.cons.injEq] at hc
            simp [hc.1]
        | succ j =>
          have hj2 : batch[(i + 1) + j]? = some s := by
            rw [show (i + 1) + j = i + (j + 1) by omega]
            exact hj
          have := hpos j s hj2
          simpa using this

/-- One batch of the retry loop (with at least one allowed attempt, against
a service whose data responses have one item per segment) returns a list
of the batch length that is either the original batch (total failure) or
positionally derived from some data response. -/
theorem azBatchLoop_spec (http : Nat → Nat → AzResp) (k : Nat)
    (batch : List (List Char))
    (H : ∀ a items, http k a = .data items → items.length = batch.length) :
    ∀ fuel, 1 ≤ fuel → ∀ attempt,
      azBatchResultOk http k batch
        (azBatchLoop http k batch attempt fuel) := by
  intro fuel
  induction fuel with
  | zero => intro h; omega
  | succ f ihf =>
    intro _ attempt
    simp only [azBatchLoop]
    rcases hresp : http k attempt with _ | items
    · by_cases hf : f = 0
      · simp only [hf, if_true]
        exact ⟨rfl, Or.inl rfl⟩
      · simp only [hf, if_false]
        exact ihf (by omega) (attempt + 1)
    · have hlen := H attempt items hresp
      obtain ⟨out, hout, holen, hpos⟩ := azProcessData_spec batch items 0
        (by omega)
      show azBatchResultOk http k batch
        (match azProcessData batch 0 items with
        | Except.ok out => out
        | Except.error _ =>
          if f = 0 then batch else azBatchLoop http k batch (attempt + 1) f)
      rw [hout]
      show azBatchResultOk http k batch out
      refine ⟨by omega, Or.inr ⟨attempt, items, hresp, ?_⟩⟩
      intro j s hj
      have := hpos j s (by simpa using hj)
      exact this

/-- The batch fold of `translate_text`: the accumulated output is the
concatenation, in order, of one per-batch result per batch, each governed
by `azBatchResultOk`. -/
theorem azFold_spec (http : Nat → Nat → AzResp) (maxRetries : Nat)
    (hmr : 1 ≤ maxRetries) :
    ∀ (bs : List (List (List Char))) (acc : List (List Char)) (i : Nat),
      (∀ (k : Nat) (b : List (List Char)), bs[k]? = some b →
        ∀ a items, http (i + k) a = .data items → items.length = b.length) →
      ∃ rs : List (List (List Char)),
        (bs.foldl (fun (st : List (List Char) × Nat) b =>
          (st.1 ++ azBatchLoop http st.2 b 1 maxRetries, st.2 + 1))
          (acc, i)).1 = acc ++ rs.flatten ∧
        rs.length = bs.length ∧
        rs.flatten.length = bs.flatten.length ∧
        ∀ (k : Nat) (b : List (List Char)), bs[k]? = some b →
          ∃ r, rs[k]? = some r ∧ azBatchResultOk http (i + k) b r := by
  intro bs
  induction bs with
  | nil =>
    intro acc i _
    refine ⟨[], by simp, rfl, rfl, ?_⟩
    intro k b hc
    simp at hc
  | cons b rest ih =>
    intro acc i hH
    have hHb : ∀ a items, http i a = .data items →
        items.length = b.length := by
      intro a items ha
      exact hH 0 b (by simp) a items (by simpa using ha)
    have hb := azBatchLoop_spec http i b hHb maxRetries hmr 1
    obtain ⟨rs, hfold, hrslen, hflatlen, hidx⟩ := ih
      (acc ++ azBatchLoop http i b 1 maxRetries) (i + 1) (by
        intro k b2 hb2 a items ha
        exact hH (k + 1) b2 (by simpa using hb2) a items (by
          rw [show i + (k + 1) = (i + 1) + k by omega]
          exact ha))
    refine ⟨azBatchLoop http i b 1 maxRetries :: rs, ?_, by simp [hrslen],
      ?_, ?_⟩
    · simp only [List.foldl_cons]
      rw [hfold]
      simp
    · simp only [List.flatten_cons, List.length_append, hflatlen]
      have := hb.1
      omega
    · intro k b2 hb2
      cases k with
      | zero =>
        simp only [List.getElem?_cons_zero, Option.some.injEq] at hb2
        subst hb2
        exact ⟨azBatchLoop http i b 1 maxRetries, by simp, by simpa using hb⟩
      | succ k =>
        simp only [List.getElem?_cons_succ] at hb2 ⊢
        obtain ⟨r, hr, hok⟩ := hidx k b2 hb2
        refine ⟨r, hr, ?_⟩
        rw [show i + (k + 1) = (i + 1) + k by omega]
        exact hok

/-- Claim C10: for every behavior of the remote service,
`AzureTranslator.translate_text` returns (given a valid target language)
a list with exactly one string per input segment; an empty segment list
yields an empty list; when every request fails after all retries, the
returned list is exactly the original segments; and whenever at least one
attempt is allowed and every data response matches its batch length, the
output is the in-order concatenation of per-batch results, each batch
contributing either its original segments (total failure) or, per
position, the stripped first translation when present and the original
segment when the translations list is empty. -/
theorem claim_C10 (http : Nat → Nat → AzResp) (maxRetries : Nat)
    (segments : List (List Char)) (toLang : List Char)
    (h : 2 ≤ toLang.length) :
    (∃ out, azTranslateText http maxRetries segments toLang = .ok out ∧
        out.length = segments.length) ∧
      (segments = [] →
        azTranslateText http maxRetries segments toLang = .ok []) ∧
      ((∀ b a, http b a = .fail) →
        azTranslateText http maxRetries segments toLang = .ok segments) ∧
      ((1 ≤ maxRetries ∧ ∀ (k : Nat) (b : List (List Char)),
          (azBatchSegments segments)[k]? = some b →
          ∀ a items, http (1 + k) a = .data items →
            items.length = b.length) →
        (azBatchSegments segments).flatten = segments ∧
        ∃ rs : List (List (List Char)),
          azTranslateText http maxRetries segments toLang = .ok rs.flatten ∧
          rs.length = (azBatchSegments segments).length ∧
          ∀ (k : Nat) (b : List (List Char)),
            (azBatchSegments segments)[k]? = some b →
            ∃ r, rs[k]? = some r ∧ azBatchResultOk http (1 + k) b r) := by
  have hmix : (1 ≤ maxRetries ∧ ∀ (k : Nat) (b : List (List Char)),
      (azBatchSegments segments)[k]? = some b →
      ∀ a items, http (1 + k) a = .data items → items.length = b.length) →
      (azBatchSegments segments).flatten = segments ∧
      ∃ rs : List (List (List Char)),
        azTranslateText http maxRetries segments toLang = .ok rs.flatten ∧
        rs.length = (azBatchSegments segments).length ∧
        ∀ (k : Nat) (b : List (List Char)),
          (azBatchSegments segments)[k]? = some b →
          ∃ r, rs[k]? = some r ∧ azBatchResultOk http (1 + k) b r := by
    rintro ⟨hmr, hH⟩
    refine ⟨azBatchSegments_flatten segments, ?_⟩
    by_cases hseg : segments.isEmpty = true
    · have h0 : segments = [] := List.isEmpty_iff.mp hseg
      subst h0
      refine ⟨[], by simp [azTranslateText], rfl, ?_⟩
      intro k b hc
      rw [show azBatchSegments [] = [] from rfl] at hc
      simp at hc
    · have hlang : ¬toLang.length < 2 := by omega
      obtain ⟨rs, hfold, hrslen, hflatlen, hidx⟩ := azFold_spec http
        maxRetries hmr (azBatchSegments segments) [] 1 hH
      refine ⟨rs, ?_, hrslen, hidx⟩
      simp only [azTranslateText, hseg, Bool.false_eq_true, if_false,
        hlang, if_false]
      have hlen2 : (([] : List (List Char)) ++ rs.flatten).length =
          segments.length := by
        simp only [List.nil_append]
        rw [hflatlen]
        have := congrArg List.length (azBatchSegments_flatten segments)
        simpa using this
      rw [hfold, if_neg (fun hc => hc hlen2)]
      simp
  by_cases hseg : segments.isEmpty = true
  · have hnil := List.isEmpty_iff.mp hseg
    subst hnil
    refine ⟨⟨[], by simp [azTranslateText], rfl⟩, fun _ => by
      simp [azTranslateText], fun _ => by simp [azTranslateText], hmix⟩
  · have hlang : ¬toLang.length < 2 := by omega
    refine ⟨?_, ?_, ?_, hmix⟩
    · simp only [azTranslateText, hseg, Bool.false_eq_true, if_false,
        hlang, if_false]
      exact ⟨_, rfl, azGuard_length _ segments⟩
    · intro hc
      subst hc
      simp at hseg
    · intro hAll
      simp only [azTranslateText, hseg, Bool.false_eq_true, if_false,
        hlang, if_false]
      rw [azFold_allFail http hAll maxRetries (azBatchSegments segments) [] 1]
      by_cases hmr : maxRetries = 0
      · simp only [hmr, if_true]
        have hflat : ((azBatchSegments segments).map
            (fun _ => ([] : List (List Char)))).flatten = [] := by
          induction azBatchSegments segments with
          | nil => rfl
          | cons b t ih => simpa using ih
        rw [hflat]
        have hne : segments.length ≠ 0 := by
          intro hc
          rw [List.length_eq_zero] at hc
          subst hc
          simp at hseg
        simp only [List.nil_append, List.length_nil]
        rw [if_pos (by omega), if_neg (by omega)]
        simp
      · simp only [hmr, if_false]
        have hid : ((azBatchSegments segments).map
            (fun b => b)).flatten = segments := by
          have hmap : (azBatchSegments segments).map (fun b => b) =
              azBatchSegments segments := by simp
          rw [hmap]
          exact azBatchSegments_flatten segments
        rw [hid]
        simp

/-- Witness for C10: an always-failing service, one segment, `to_lang`
`"en"` — the result is exactly the original segment list, with the
positional conjunct also discharged at this input. -/
theorem claim_C10_witness :
    azTranslateText (fun _ _ => .fail) 3 [str "ab"] (str "en") =
      .ok [str "ab"] := by
  have h := claim_C10 (fun _ _ => .fail) 3 [str "ab"] (str "en") (by decide)
  have _ := h.2.2.2 ⟨by decide, fun k b hb a items hresp => nomatch hresp⟩
  exact h.2.2.1 (fun _ _ => rfl)

/-! ### Claims C1 and C7: the item loops of clean_epub / translate_epub -/

/-- The item fold of `clean_epub` is filter-then-map: only non-navigation,
non-empty items produce output entries. -/
theorem cleanItemsFold (cleanFn : List Char → List Char) :
    ∀ (items : List ContentItem) (acc : List OutItem),
      items.foldl (fun acc item =>
        if isSkippedName item.file_name then acc
        else if (pyStrip item.content).isEmpty then acc
        else acc ++ [⟨item.file_name, item.title,
          reconstruct_html (cleanFn item.content) item.html_content⟩]) acc =
      acc ++ (goodItems items).map (mkCleanOut cleanFn) := by
  intro items
  induction items with
  | nil => intro acc; simp [goodItems]
  | cons it rest ih =>
    intro acc
    simp only [List.foldl_cons]
    by_cases hskip : isSkippedName it.file_name = true
    · have hgood : goodItem it = false := by simp [goodItem, hskip]
      rw [if_pos hskip, ih]
      simp [goodItems, List.filter_cons, hgood]
    · by_cases hempty : (pyStrip it.content).isEmpty = true
      · have hgood : goodItem it = false := by simp [goodItem, hempty]
        rw [if_neg hskip, if_pos hempty, ih]
        simp [goodItems, List.filter_cons, hgood]
      · have hgood : goodItem it = true := by
          simp [goodItem]
          exact ⟨by simpa using hskip, by simpa using hempty⟩
        rw [if_neg hskip, if_neg hempty, ih]
        simp [goodItems, List.filter_cons, hgood, mkCleanOut]

/-- The item fold of `translate_epub`: outputs, paragraph totals, change
counts and events are exactly the per-good-item aggregates. -/
theorem transItemsFold (provider : List (List Char) → List (List Char))
    (cfg : TrCfg) :
    ∀ (items : List ContentItem) (st : List OutItem × Nat × Nat × List TEvent),
      items.foldl (fun (st : List OutItem × Nat × Nat × List TEvent) item =>
        if isSkippedName item.file_name then st
        else if (pyStrip item.content).isEmpty then st
        else
          let (out, np, nd, evs) := processItem provider cfg item
          (st.1 ++ [out], st.2.1 + np, st.2.2.1 + nd, st.2.2.2 ++ evs)) st =
      (st.1 ++ (goodItems items).map (fun it => (processItem provider cfg it).1),
       st.2.1 + totalParagraphsOf items,
       st.2.2.1 + changedParagraphsOf provider cfg items,
       st.2.2.2 ++ itemEventsOf provider cfg items) := by
  intro items
  induction items with
  | nil =>
    intro st
    simp [goodItems, totalParagraphsOf, changedParagraphsOf, itemEventsOf]
  | cons it rest ih =>
    intro st
    simp only [List.foldl_cons]
    by_cases hskip : isSkippedName it.file_name = true
    · have hgood : goodItem it = false := by simp [goodItem, hskip]
      rw [if_pos hskip, ih]
      simp [goodItems, totalParagraphsOf, changedParagraphsOf, itemEventsOf,
        List.filter_cons, hgood]
    · by_cases hempty : (pyStrip it.content).isEmpty = true
      · have hgood : goodItem it = false := by simp [goodItem, hempty]
        rw [if_neg hskip, if_pos hempty, ih]
        simp [goodItems, totalParagraphsOf, changedParagraphsOf, itemEventsOf,
          List.filter_cons, hgood]
      · have hgood : goodItem it = true := by
          simp [goodItem]
          exact ⟨by simpa using hskip, by simpa using hempty⟩
        rw [if_neg hskip, if_neg hempty]
        rcases hpi : processItem provider cfg it with ⟨out, np, nd, evs⟩
        simp only [hpi, ih]
        have hnp : np = (splitParagraphsT it.content).length := by
          have := congrArg (fun x => x.2.1) hpi
          simpa [processItem] using this.symm
        have hnd : nd = countDiffs (splitParagraphsT it.content)
            (translateParagraphsM provider cfg
              (splitParagraphsT it.content)).1 := by
          have := congrArg (fun x => x.2.2.1) hpi
          simpa [processItem] using this.symm
        simp only [goodItems, totalParagraphsOf, changedParagraphsOf,
          itemEventsOf, List.filter_cons, hgood, if_true, List.map_cons,
          List.sum_cons, List.flatten_cons, hpi, Prod.mk.injEq]
        refine ⟨by simp, by omega, by omega, by simp⟩

/-- `translate_epub` after extraction, in closed form: the fold replaced by
the per-good-item aggregates. -/
theorem translate_epub_model_eq (provider : List (List Char) → List (List Char))
    (cfg : TrCfg) (allowNoop : Bool) (minr : ℚ) (items : List ContentItem) :
    translate_epub_model provider cfg allowNoop minr items =
      (if !allowNoop && decide (ratioOf provider cfg items ≤ minr) then
        (.error .translationNoop,
         TEvent.translate_start :: (itemEventsOf provider cfg items ++
           [.translate_noop (totalParagraphsOf items)
              (changedParagraphsOf provider cfg items), .translate_error]))
      else if ((goodItems items).map
          (fun it => (processItem provider cfg it).1)).isEmpty then
        (.error .epubEmptyContent,
         TEvent.translate_start :: (itemEventsOf provider cfg items ++
           [.translate_error]))
      else
        (.ok ((goodItems items).map
          (fun it => (processItem provider cfg it).1)),
         TEvent.translate_start :: (itemEventsOf provider cfg items ++
           [.translate_done]))) := by
  simp only [translate_epub_model,
    transItemsFold provider cfg items ([], 0, 0, [TEvent.translate_start])]
  simp [ratioOf]

/-- `_translate_paragraphs` only ever emits chunking/batch events. -/
theorem noNoop_translateParagraphs
    (provider : List (List Char) → List (List Char)) (cfg : TrCfg)
    (ps : List (List Char)) :
    ∀ ev ∈ (translateParagraphsM provider cfg ps).2,
      isNoopEvent ev = false := by
  have hfold : ∀ (bs : List (List (List Char))) (total : Nat)
      (tr : List (List Char)) (evs : List TEvent) (i : Nat),
      (∀ ev ∈ evs, isNoopEvent ev = false) →
      ∀ ev ∈ (bs.foldl (fun (st : List (List Char) × List TEvent × Nat) b =>
        let (tr, evs, i) := st
        let out := provider b
        (tr ++ out,
         evs ++ [.translate_batch_start i total b.length,
                 .translate_batch_done i total], i + 1)) (tr, evs, i)).2.1,
        isNoopEvent ev = false := by
    intro bs
    induction bs with
    | nil => intro total tr evs i h ev hev; exact h ev hev
    | cons b rest ih =>
      intro total tr evs i h ev hev
      simp only [List.foldl_cons] at hev
      refine ih total _ _ _ ?_ ev hev
      intro e he
      rcases List.mem_append.mp he with he2 | he2
      · exact h e he2
      · rcases List.mem_cons.mp he2 with he3 | he3
        · subst he3; rfl
        · have : e = .translate_batch_done i total := by simpa using he3
          subst this; rfl
  intro ev hev
  simp only [translateParagraphsM] at hev
  by_cases hps : ps.isEmpty = true
  · simp [hps] at hev
  · simp only [hps, Bool.false_eq_true, if_false] at hev
    refine hfold _ _ _ _ _ ?_ ev hev
    intro e he
    have : e = TEvent.translate_item_chunking_done
        (batchParagraphs cfg ps).length ps.length := by simpa using he
    subst this; rfl

/-- Per-item events of `translate_epub` never contain `translate_noop`. -/
theorem noNoop_itemEvents (provider : List (List Char) → List (List Char))
    (cfg : TrCfg) (items : List ContentItem) :
    ∀ ev ∈ itemEventsOf provider cfg items, isNoopEvent ev = false := by
  intro ev hev
  simp only [itemEventsOf] at hev
  obtain ⟨block, hblock, hmem⟩ := List.mem_flatten.mp hev
  obtain ⟨it, _, hit⟩ := List.mem_map.mp hblock
  rw [← hit] at hmem
  simp only [processItem] at hmem
  rcases List.mem_append.mp hmem with h2 | h2
  · rcases List.mem_append.mp h2 with h3 | h3
    · have : ev = TEvent.translate_item_start it.file_name
          (splitParagraphsT it.content).length := by simpa using h3
      subst this; rfl
    · exact noNoop_translateParagraphs provider cfg _ ev h3
  · have : ev = TEvent.translate_item_done it.file_name := by simpa using h2
    subst this; rfl

/-- Claim C1: after all items are processed, `translate_epub` computes
`ratio = changed / total` over trimmed-paragraph differences (`0` when
there are no paragraphs); when `allow_noop` is false and
`ratio <= min_changed_ratio` it raises `TranslationError` having appended
the `translate_noop` status event, and no output EPUB is produced (the
result is the error, written before `_create_translated_epub` runs);
otherwise no such error is raised at the gate and no `translate_noop`
event is ever logged. -/
theorem claim_C1 (provider : List (List Char) → List (List Char))
    (cfg : TrCfg) (allowNoop : Bool) (minr : ℚ) (items : List ContentItem) :
    ((allowNoop = false ∧ ratioOf provider cfg items ≤ minr) →
        (translate_epub_model provider cfg allowNoop minr items).1 =
          .error .translationNoop ∧
        TEvent.translate_noop (totalParagraphsOf items)
            (changedParagraphsOf provider cfg items) ∈
          (translate_epub_model provider cfg allowNoop minr items).2) ∧
      (¬(allowNoop = false ∧ ratioOf provider cfg items ≤ minr) →
        (translate_epub_model provider cfg allowNoop minr items).1 ≠
          .error .translationNoop ∧
        ∀ ev ∈ (translate_epub_model provider cfg allowNoop minr items).2,
          isNoopEvent ev = false) := by
  constructor
  · rintro ⟨ha, hr⟩
    subst ha
    rw [translate_epub_model_eq]
    have hcond : (!false && decide (ratioOf provider cfg items ≤ minr)) =
        true := by
      simp [hr]
    rw [if_pos hcond]
    exact ⟨rfl, by simp⟩
  · intro hneg
    have hcond : (!allowNoop && decide (ratioOf provider cfg items ≤ minr)) =
        false := by
      cases allowNoop with
      | true => simp
      | false =>
        have : ¬ratioOf provider cfg items ≤ minr := fun hc =>
          hneg ⟨rfl, hc⟩
        simp [this]
    rw [translate_epub_model_eq]
    rw [if_neg (by simp [hcond])]
    by_cases houts : ((goodItems items).map
        (fun it => (processItem provider cfg it).1)).isEmpty = true
    · rw [if_pos houts]
      refine ⟨by simp, ?_⟩
      intro ev hev
      rcases List.mem_cons.mp hev with h3 | h3
      · subst h3; rfl
      · rcases List.mem_append.mp h3 with h4 | h4
        · exact noNoop_itemEvents provider cfg items ev h4
        · have : ev = TEvent.translate_error := by simpa using h4
          subst this; rfl
    · rw [if_neg houts]
      refine ⟨by simp, ?_⟩
      intro ev hev
      rcases List.mem_cons.mp hev with h3 | h3
      · subst h3; rfl
      · rcases List.mem_append.mp h3 with h4 | h4
        · exact noNoop_itemEvents provider cfg items ev h4
        · have : ev = TEvent.translate_done := by simpa using h4
          subst this; rfl

/-- Witness for C1: no content items, `allow_noop = False`,
`min_changed_ratio = 0.0` — the gate fires, the run fails with
`TranslationError` and the status log holds the `translate_noop` event. -/
theorem claim_C1_witness :
    (translate_epub_model (fun b => b) defaultTrCfg false 0 []).1 =
        .error .translationNoop ∧
      TEvent.translate_noop (totalParagraphsOf [])
          (changedParagraphsOf (fun b => b) defaultTrCfg []) ∈
        (translate_epub_model (fun b => b) defaultTrCfg false 0 []).2 :=
  (claim_C1 (fun b => b) defaultTrCfg false 0 []).1
    ⟨rfl, by norm_num [ratioOf, totalParagraphsOf, goodItems]⟩

/-- Claim C7: in both `clean_epub` and `translate_epub`, the output chapter
list is exactly the per-item result of the non-navigation, non-empty items
(filter then map) — an item named `nav.xhtml`, `toc.ncx`, `content.opf`, or
containing `nav`, or whose text is whitespace-only, never contributes an
entry. -/
theorem claim_C7 (cleanFn : List Char → List Char)
    (provider : List (List Char) → List (List Char)) (cfg : TrCfg)
    (allowNoop : Bool) (minr : ℚ) (items : List ContentItem) :
    cleanEpubItems cleanFn items =
        (goodItems items).map (mkCleanOut cleanFn) ∧
      (∀ outs, (translate_epub_model provider cfg allowNoop minr items).1 =
          .ok outs →
        outs = (goodItems items).map
          (fun it => (processItem provider cfg it).1)) ∧
      ∀ it ∈ items,
        (isSkippedName it.file_name = true ∨ pyStrip it.content = []) →
        it ∉ goodItems items := by
  refine ⟨?_, ?_, ?_⟩
  · simpa [cleanEpubItems] using cleanItemsFold cleanFn items []
  · intro outs houts
    rw [translate_epub_model_eq] at houts
    split at houts
    · simp at houts
    · split at houts
      · simp at houts
      · simp at houts
        exact houts.symm
  · intro it _ hbad hmem
    have := List.of_mem_filter hmem
    rcases hbad with hb | hb
    · simp [goodItem, hb] at this
    · simp [goodItem, hb] at this

/-- Witness for C7: a navigation item, a whitespace-only item and a real
chapter — only the chapter survives either stage. -/
theorem claim_C7_witness :
    cleanEpubItems (fun t => t)
        [⟨str "i1", str "nav.xhtml", str "N", str "x", str "h"⟩,
         ⟨str "i2", str "ch2.xhtml", str "E", str "  ", str "h"⟩,
         ⟨str "i3", str "ch1.xhtml", str "T", str "hello", str "h"⟩] =
      (goodItems
        [⟨str "i1", str "nav.xhtml", str "N", str "x", str "h"⟩,
         ⟨str "i2", str "ch2.xhtml", str "E", str "  ", str "h"⟩,
         ⟨str "i3", str "ch1.xhtml", str "T", str "hello", str "h"⟩]).map
        (mkCleanOut (fun t => t)) ∧
      (⟨str "i1", str "nav.xhtml", str "N", str "x", str "h"⟩ : ContentItem) ∉
        goodItems
          [⟨str "i1", str "nav.xhtml", str "N", str "x", str "h"⟩,
           ⟨str "i2", str "ch2.xhtml", str "E", str "  ", str "h"⟩,
           ⟨str "i3", str "ch1.xhtml", str "T", str "hello", str "h"⟩] := by
  have h := claim_C7 (fun t => t) (fun b => b) defaultTrCfg true 0
    [⟨str "i1", str "nav.xhtml", str "N", str "x", str "h"⟩,
     ⟨str "i2", str "ch2.xhtml", str "E", str "  ", str "h"⟩,
     ⟨str "i3", str "ch1.xhtml", str "T", str "hello", str "h"⟩]
  exact ⟨h.1, h.2.2 _ (by simp) (Or.inl (by decide))⟩

/-! ### Claim C4: chunk round-trip (no characters dropped, whole-paragraph
chunks) -/

theorem ns_nil : ns ([] : List Char) = [] := rfl

theorem ns_take_drop (mc : Nat) (s : List Char) :
    ns (s.take mc) ++ ns (s.drop mc) = ns s := by
  rw [← ns_append, List.take_append_drop]

theorem ns_cons_space {c : Char} (hc : pyIsSpace c = true) (l : List Char) :
    ns (c :: l) = ns l := by
  simp [ns, List.filter_cons, hc]

theorem ns_sentSplitAux (l : List Char) :
    ∀ (skipping : Bool) (prev : Option Char) (acc : List Char),
      ns (sentSplitAux skipping prev acc l).flatten =
        ns acc.reverse ++ ns l := by
  induction l with
  | nil => intro skipping prev acc; simp [sentSplitAux, ns_nil]
  | cons c rest ih =>
    intro skipping prev acc
    simp only [sentSplitAux]
    by_cases h1 : (skipping && pyIsSpace c) = true
    · rw [if_pos h1, ih]
      have hc : pyIsSpace c = true := by
        simp only [Bool.and_eq_true] at h1
        exact h1.2
      rw [ns_cons_space hc]
    · rw [if_neg h1]
      by_cases h2 : (!skipping && (pyIsSpace c && sentEndChar prev)) = true
      · rw [if_pos h2]
        have hc : pyIsSpace c = true := by
          simp only [Bool.and_eq_true] at h2
          exact h2.2.1
        simp only [List.flatten_cons, ns_append, ih, List.reverse_nil,
          ns_nil, List.nil_append]
        rw [ns_cons_space hc]
      · rw [if_neg h2, ih]
        simp only [List.reverse_cons, ns_append]
        by_cases hc : pyIsSpace c = true
        · rw [ns_cons_space hc]
          simp [ns, List.filter_cons, hc]
        · have hc2 : pyIsSpace c = false := by
            rcases hb : pyIsSpace c with _ | _
            · rfl
            · exact absurd hb hc
          simp [ns, List.filter_cons, hc2, List.append_assoc]

theorem ns_sentSplit (p : List Char) :
    ns (sentSplit p).flatten = ns p := by
  simpa [ns] using ns_sentSplitAux p false none []

theorem nsSentFold (mc : Nat) :
    ∀ (ss : List (List Char)) (chunks : List (List Char)) (cur : List Char),
      ns ((ss.foldl (chunkSentStep mc) (chunks, cur)).1).flatten ++
          ns (ss.foldl (chunkSentStep mc) (chunks, cur)).2 =
        ns chunks.flatten ++ ns cur ++ ns ss.flatten := by
  intro ss
  induction ss with
  | nil => intro chunks cur; simp [ns_nil]
  | cons s rest ih =>
    intro chunks cur
    simp only [List.foldl_cons]
    have hstep : ns ((chunkSentStep mc (chunks, cur) s).1).flatten ++
        ns (chunkSentStep mc (chunks, cur) s).2 =
        ns chunks.flatten ++ ns cur ++ ns s := by
      simp only [chunkSentStep]
      by_cases hover : mc < cur.length + s.length
      · rw [if_pos hover]
        by_cases hce : cur.isEmpty = true
        · have hc0 : cur = [] := List.isEmpty_iff.mp hce
          subst hc0
          show ns (chunks ++ [List.take mc s]).flatten ++
            ns (List.drop mc s) = ns chunks.flatten ++ ns [] ++ ns s
          simp only [List.flatten_append, List.flatten_cons,
            List.flatten_nil, List.append_nil, ns_append, ns_nil]
          rw [List.append_assoc, ns_take_drop]
        · rw [if_neg hce]
          simp only [List.flatten_append, List.flatten_cons,
            List.flatten_nil, List.append_nil, ns_append, ns_pyStrip]
      · rw [if_neg hover]
        by_cases hce : cur.isEmpty = true
        · have hc0 : cur = [] := List.isEmpty_iff.mp hce
          subst hc0
          show ns chunks.flatten ++ ns s = ns chunks.flatten ++ ns [] ++ ns s
          simp [ns_nil]
        · simp only [hce, Bool.false_eq_true, if_false]
          rw [ns_append, ns_cons_space (by rfl)]
          simp [List.append_assoc]
    rcases hst : chunkSentStep mc (chunks, cur) s with ⟨chunks2, cur2⟩
    rw [hst] at hstep
    rw [ih chunks2 cur2, hstep]
    simp [List.append_assoc, ns_append]

theorem nsParaFold (mc : Nat) :
    ∀ (ps : List (List Char)) (chunks : List (List Char)) (cur : List Char),
      ns ((ps.foldl (chunkParaStep mc) (chunks, cur)).1).flatten ++
          ns (ps.foldl (chunkParaStep mc) (chunks, cur)).2 =
        ns chunks.flatten ++ ns cur ++ ns ps.flatten := by
  intro ps
  induction ps with
  | nil => intro chunks cur; simp [ns_nil]
  | cons p rest ih =>
    intro chunks cur
    simp only [List.foldl_cons]
    have hstep : ns ((chunkParaStep mc (chunks, cur) p).1).flatten ++
        ns (chunkParaStep mc (chunks, cur) p).2 =
        ns chunks.flatten ++ ns cur ++ ns p := by
      simp only [chunkParaStep]
      by_cases hover : mc < cur.length + p.length
      · rw [if_pos hover]
        by_cases hce : cur.isEmpty = true
        · have hc0 : cur = [] := List.isEmpty_iff.mp hce
          subst hc0
          show ns ((sentSplit p).foldl (chunkSentStep mc)
              (chunks, [])).1.flatten ++
            ns ((sentSplit p).foldl (chunkSentStep mc) (chunks, [])).2 =
            ns chunks.flatten ++ ns [] ++ ns p
          rw [nsSentFold mc (sentSplit p) chunks [], ns_sentSplit]
        · rw [if_neg hce]
          simp only [List.flatten_append, List.flatten_cons,
            List.flatten_nil, List.append_nil, ns_append, ns_pyStrip]
      · rw [if_neg hover]
        by_cases hce : cur.isEmpty = true
        · have hc0 : cur = [] := List.isEmpty_iff.mp hce
          subst hc0
          show ns chunks.flatten ++ ns p = ns chunks.flatten ++ ns [] ++ ns p
          simp [ns_nil]
        · simp only [hce, Bool.false_eq_true, if_false]
          rw [ns_append, ns_append]
          have hnn : ns nn = [] := rfl
          rw [hnn]
          simp [List.append_assoc]
    rcases hst : chunkParaStep mc (chunks, cur) p with ⟨chunks2, cur2⟩
    rw [hst] at hstep
    rw [ih chunks2 cur2, hstep]
    simp [List.append_assoc, ns_append]

theorem ns_chunk_text (t : List Char) (N : Nat) :
    ns (pyJoin nn (chunk_text t N)) = ns t := by
  have hjoin : ∀ xs : List (List Char), ns (pyJoin nn xs) = ns xs.flatten := by
    intro xs
    exact ns_pyJoin nn rfl xs
  rw [hjoin]
  have hfold := nsParaFold (N * 2) (splitParas t) [] []
  have ht : ns (splitParas t).flatten = ns t := by
    rw [← hjoin (splitParas t), pyJoin_nn_splitParas]
  simp only [chunk_text]
  rcases hst : (splitParas t).foldl (chunkParaStep (N * 2)) ([], []) with
    ⟨chunks, cur⟩
  rw [hst] at hfold
  simp only [List.flatten_nil, ns_nil, List.nil_append] at hfold
  by_cases hce : cur.isEmpty = true
  · have hc0 : cur = [] := List.isEmpty_iff.mp hce
    subst hc0
    simp only [List.isEmpty_nil, if_true]
    rw [← ht, ← hfold]
    simp [ns_nil]
  · simp only [hce, Bool.false_eq_true, if_false]
    rw [← ht, ← hfold]
    simp [List.flatten_append, ns_append, ns_pyStrip]

theorem pyStrip_cons_space {c : Char} (hc : pyIsSpace c = true)
    (x : List Char) : pyStrip (c :: x) = pyStrip x := by
  simp [pyStrip, List.dropWhile_cons, hc]

theorem strip_nn_append (x : List Char) : pyStrip (nn ++ x) = pyStrip x := by
  have hsp : pyIsSpace '\n' = true := rfl
  show pyStrip ('\n' :: '\n' :: x) = pyStrip x
  rw [pyStrip_cons_space hsp, pyStrip_cons_space hsp]

theorem dropE_head_ne (g : List (List Char)) :
    ∀ h t, g.dropWhile (fun q => q.isEmpty) = h :: t → h ≠ [] := by
  induction g with
  | nil => intro h t hc; simp at hc
  | cons g0 gr ih =>
    intro h t hc
    by_cases h0 : g0.isEmpty = true
    · rw [List.dropWhile_cons, if_pos h0] at hc
      exact ih h t hc
    · rw [List.dropWhile_cons, if_neg h0] at hc
      injection hc with hc1 hc2
      subst hc1
      simpa using h0

theorem joinNN_dropE_eq_nil {g : List (List Char)}
    (h : pyJoin nn (g.dropWhile (fun q => q.isEmpty)) = []) :
    g.dropWhile (fun q => q.isEmpty) = [] := by
  rcases hd : g.dropWhile (fun q => q.isEmpty) with _ | ⟨h0, t⟩
  · exact hd
  · exfalso
    have hne := dropE_head_ne g h0 t hd
    rw [hd] at h
    cases t with
    | nil => exact hne (by simpa [pyJoin] using h)
    | cons y s =>
      rw [pyJoin_cons nn h0 _ (by simp)] at h
      simp [nn] at h

theorem join_dropE_singleton (p : List Char) :
    pyJoin nn ([p].dropWhile (fun q => q.isEmpty)) = p := by
  by_cases hp : p.isEmpty = true
  · have hp0 : p = [] := List.isEmpty_iff.mp hp
    subst hp0
    rfl
  · simp [List.dropWhile_cons, hp, pyJoin]

theorem pyJoin_append_singleton (xs : List (List Char)) (p : List Char)
    (h : xs ≠ []) : pyJoin nn (xs ++ [p]) = pyJoin nn xs ++ nn ++ p := by
  induction xs with
  | nil => exact absurd rfl h
  | cons x t ih =>
    cases t with
    | nil => rfl
    | cons y s =>
      have hrec := ih (by simp)
      show pyJoin nn (x :: ((y :: s) ++ [p])) = _
      rw [pyJoin_cons nn x _ (by simp), hrec, pyJoin_cons nn x _ (by simp)]
      simp [List.append_assoc]

theorem strip_join_dropE (g : List (List Char)) :
    pyStrip (pyJoin nn (g.dropWhile (fun q => q.isEmpty))) =
      pyStrip (pyJoin nn g) := by
  induction g with
  | nil => rfl
  | cons h0 t ih =>
    by_cases he : h0.isEmpty = true
    · have h00 : h0 = [] := List.isEmpty_iff.mp he
      subst h00
      rw [List.dropWhile_cons, if_pos (by simp), ih]
      cases t with
      | nil => rfl
      | cons y s =>
        rw [pyJoin_cons nn [] _ (by simp), List.nil_append, strip_nn_append]
    · rw [List.dropWhile_cons, if_neg he]

theorem chunkStructFold (mc : Nat) :
    ∀ (ps : List (List Char)) (pre : List (List Char))
      (chunks : List (List Char)) (cur : List Char),
      (∀ p ∈ ps, p.length ≤ mc) →
      (∀ c ∈ chunks, ∃ g, g ≠ [] ∧ (∃ a b, a ++ g ++ b = pre ++ ps) ∧
        c = pyStrip (pyJoin nn g)) →
      (∃ g, (∃ a, a ++ g = pre) ∧
        cur = pyJoin nn (g.dropWhile (fun q => q.isEmpty))) →
      (∀ c ∈ (ps.foldl (chunkParaStep mc) (chunks, cur)).1,
        ∃ g, g ≠ [] ∧ (∃ a b, a ++ g ++ b = pre ++ ps) ∧
          c = pyStrip (pyJoin nn g)) ∧
      (∃ g, (∃ a, a ++ g = pre ++ ps) ∧
        (ps.foldl (chunkParaStep mc) (chunks, cur)).2 =
          pyJoin nn (g.dropWhile (fun q => q.isEmpty))) := by
  intro ps
  induction ps with
  | nil =>
    intro pre chunks cur _ hchunks hcur
    simp only [List.foldl_nil, List.append_nil] at hchunks ⊢
    exact ⟨hchunks, hcur⟩
  | cons p rest ih =>
    intro pre chunks cur hps hchunks hcur
    obtain ⟨g, ⟨a, ha⟩, hcurj⟩ := hcur
    have hp : p.length ≤ mc := hps p (by simp)
    have hassoc : (pre ++ [p]) ++ rest = pre ++ (p :: rest) := by simp
    simp only [List.foldl_cons]
    have hmain : ∀ st : List (List Char) × List Char,
        st = chunkParaStep mc (chunks, cur) p →
        (∀ c ∈ st.1,
          ∃ g2, g2 ≠ [] ∧ (∃ a2 b2, a2 ++ g2 ++ b2 = pre ++ (p :: rest)) ∧
            c = pyStrip (pyJoin nn g2)) ∧
        (∃ g2, (∃ a2, a2 ++ g2 = pre ++ [p]) ∧
          st.2 = pyJoin nn (g2.dropWhile (fun q => q.isEmpty))) := by
      intro st hst
      simp only [chunkParaStep] at hst
      by_cases hover : mc < cur.length + p.length
      · rw [if_pos hover] at hst
        by_cases hce : cur.isEmpty = true
        · exfalso
          have hc0 : cur = [] := List.isEmpty_iff.mp hce
          rw [hc0] at hover
          simp at hover
          omega
        · rw [if_neg hce] at hst
          subst hst
          have hcurne : cur ≠ [] := by simpa using hce
          have hdropne : g.dropWhile (fun q => q.isEmpty) ≠ [] := by
            intro hc
            rw [hc] at hcurj
            exact hcurne (by simpa [pyJoin] using hcurj)
          have hgne : g ≠ [] := by
            intro hc
            subst hc
            exact hdropne rfl
          constructor
          · intro c hcm
            rcases List.mem_append.mp hcm with hcm2 | hcm2
            · exact hchunks c hcm2
            · have hcc : c = pyStrip cur := by simpa using hcm2
              refine ⟨g, hgne, ⟨a, p :: rest, ?_⟩, ?_⟩
              · rw [ha]
              · rw [hcc, hcurj, strip_join_dropE]
          · refine ⟨[p], ⟨pre, rfl⟩, ?_⟩
            rw [join_dropE_singleton]
      · rw [if_neg hover] at hst
        subst hst
        constructor
        · intro c hcm
          exact hchunks c hcm
        · by_cases hce : cur.isEmpty = true
          · have hc0 : cur = [] := List.isEmpty_iff.mp hce
            have hdropnil : g.dropWhile (fun q => q.isEmpty) = [] :=
              joinNN_dropE_eq_nil (by rw [← hcurj, hc0])
            refine ⟨g ++ [p], ⟨a, by rw [← List.append_assoc, ha]⟩, ?_⟩
            rw [List.dropWhile_append]
            simp only [hdropnil, List.isEmpty_nil, if_true]
            simp only [hce, if_true]
            rw [join_dropE_singleton]
          · have hdropne : g.dropWhile (fun q => q.isEmpty) ≠ [] := by
              intro hc
              rw [hc] at hcurj
              have : cur = [] := by simpa [pyJoin] using hcurj
              rw [this] at hce
              simp at hce
            refine ⟨g ++ [p], ⟨a, by rw [← List.append_assoc, ha]⟩, ?_⟩
            rw [List.dropWhile_append]
            have hni : (g.dropWhile (fun q => q.isEmpty)).isEmpty = false := by
              simpa using hdropne
            simp only [hni, Bool.false_eq_true, if_false]
            rw [pyJoin_append_singleton _ p hdropne, ← hcurj]
            simp only [hce, Bool.false_eq_true, if_false]
    have hres := ih (pre ++ [p]) (chunkParaStep mc (chunks, cur) p).1
      (chunkParaStep mc (chunks, cur) p).2
      (fun q hq => hps q (by simp [hq]))
      (by
        intro c hcm
        have := (hmain _ rfl).1 c hcm
        rwa [← hassoc] at this)
      ((hmain _ rfl).2)
    rw [hassoc] at hres
    simpa using hres

/-- Claim C4: concatenating the chunks of `chunk_text` with the paragraph
separator reproduces the input up to separator/whitespace normalization —
the non-whitespace characters are preserved exactly, in order, for every
input; and when no paragraph (hence no sentence) exceeds the character
limit, every chunk is the trimmed blank-line join of a consecutive run of
whole input paragraphs, so no mid-word break is introduced. -/
theorem claim_C4 (t : List Char) (N : Nat) :
    ns (pyJoin nn (chunk_text t N)) = ns t ∧
      ((∀ p ∈ splitParas t, p.length ≤ N * 2) →
        ∀ c ∈ chunk_text t N, ∃ g, g ≠ [] ∧
          (∃ a b, a ++ g ++ b = splitParas t) ∧
          c = pyStrip (pyJoin nn g)) := by
  refine ⟨ns_chunk_text t N, ?_⟩
  intro h c hc
  have hfold := chunkStructFold (N * 2) (splitParas t) [] [] [] h
    (by intro c2 hc2; simp at hc2)
    ⟨[], ⟨[], rfl⟩, rfl⟩
  simp only [List.nil_append] at hfold
  simp only [chunk_text] at hc
  rcases hst : (splitParas t).foldl (chunkParaStep (N * 2)) ([], []) with
    ⟨chunks, cur⟩
  rw [hst] at hc hfold
  by_cases hce : cur.isEmpty = true
  · simp only [hce, if_true] at hc
    exact hfold.1 c hc
  · have hcef : cur.isEmpty = false := by simpa using hce
    simp only [hcef, Bool.false_eq_true, if_false] at hc
    rcases List.mem_append.mp hc with hcm | hcm
    · exact hfold.1 c hcm
    · have hcc : c = pyStrip cur := by simpa using hcm
      obtain ⟨g, ⟨a, ha⟩, hj⟩ := hfold.2
      have hcurne : cur ≠ [] := by simpa using hce
      have hdropne : g.dropWhile (fun q => q.isEmpty) ≠ [] := by
        intro h2
        rw [h2] at hj
        exact hcurne (by simpa [pyJoin] using hj)
      have hgne : g ≠ [] := by
        intro h2
        subst h2
        exact hdropne rfl
      refine ⟨g, hgne, ⟨a, [], by simpa using ha⟩, ?_⟩
      have hj2 : cur = pyJoin nn (g.dropWhile (fun q => q.isEmpty)) := hj
      rw [hcc, hj2, strip_join_dropE]

/-- Witness for C4 at a concrete input whose paragraphs fit the limit
(the bounded-paragraph hypothesis of the second part is discharged). -/
theorem claim_C4_witness :
    ns (pyJoin nn (chunk_text (str "ab\n\ncd") 2)) = ns (str "ab\n\ncd") := by
  have hstruct := (claim_C4 (str "ab\n\ncd") 2).2 (by decide)
  exact (claim_C4 (str "ab\n\ncd") 2).1

example : splitParas (str "a\n\nbbbb") = [str "a", str "bbbb"] := by decide
example : chunk_text (str "a\n\nbbbb") 1 = [str "a", str "bbbb"] := by decide
example : sentSplit (str "x. y! z") = [str "x.", str "y!", str "z"] := by
  decide
example : chunk_text (str "ab. cd. ef") 2 = [str "ab.", str "cd.", str "ef"]
    := by decide

end Scan2epub
